import Mathlib

/-!
Verification of the HybridConductor v7 orchestration core against its
natural-language specification.

The development shallowly embeds the Python sources:

* `src/loop_guardian.py` — the Loop Guardian (hash normalizer, SHA-256
  digests, loop detection, termination ceilings, temperature escalation);
* `src/hybridconductor/worker/task_runner.py` and `src/worker.py` — the
  Task Runner retry loop;
* `src/hybridconductor/mcp/client.py` and `src/worker.py` — the Isolation
  Client (branch sanitization, subprocess fallback error behaviour);
* `src/hybridconductor/orchestrator/fsm.py` — pause/resume persistence.

Strings are embedded as `List Char` (the sources only exercise the ASCII
fragment of Python's `str` semantics), Python floats as exact rationals,
the monotonic clock as an explicit rational-valued `now` parameter, and
Python `re.sub` as an executable left-to-right scanner with one faithful
matcher per pattern.
-/

namespace HybridConductor

/-! ### SHA-256 (FIPS 180-4), as used by `compute_normalized_hash`

`loop_guardian.py` hashes the UTF-8 bytes of the normalized output with
`hashlib.sha256` and keeps the hex digest.  The implementation below is the
standard one over `Nat`, truncating to 32 bits explicitly. -/

/-- Truncate to a 32-bit word. -/
def w32 (x : Nat) : Nat := x % 4294967296

/-- Rotate a 32-bit word right by `n`. -/
def rotr (n x : Nat) : Nat := w32 ((x >>> n) ||| (x <<< (32 - n)))

def bigSigma0 (x : Nat) : Nat := (rotr 2 x) ^^^ (rotr 13 x) ^^^ (rotr 22 x)

def bigSigma1 (x : Nat) : Nat := (rotr 6 x) ^^^ (rotr 11 x) ^^^ (rotr 25 x)

def smallSigma0 (x : Nat) : Nat := (rotr 7 x) ^^^ (rotr 18 x) ^^^ (x >>> 3)

def smallSigma1 (x : Nat) : Nat := (rotr 17 x) ^^^ (rotr 19 x) ^^^ (x >>> 10)

def chF (x y z : Nat) : Nat := (x &&& y) ^^^ ((x ^^^ 4294967295) &&& z)

def majF (x y z : Nat) : Nat := (x &&& y) ^^^ (x &&& z) ^^^ (y &&& z)

/-- The 64 SHA-256 round constants. -/
def shaK : List Nat :=
  [1116352408, 1899447441, 3049323471, 3921009573, 961987163, 1508970993,
   2453635748, 2870763221, 3624381080, 310598401, 607225278, 1426881987,
   1925078388, 2162078206, 2614888103, 3248222580, 3835390401, 4022224774,
   264347078, 604807628, 770255983, 1249150122, 1555081692, 1996064986,
   2554220882, 2821834349, 2952996808, 3210313671, 3336571891, 3584528711,
   113926993, 338241895, 666307205, 773529912, 1294757372, 1396182291,
   1695183700, 1986661051, 2177026350, 2456956037, 2730485921, 2820302411,
   3259730800, 3345764771, 3516065817, 3600352804, 4094571909, 275423344,
   430227734, 506948616, 659060556, 883997877, 958139571, 1322822218,
   1537002063, 1747873779, 1955562222, 2024104815, 2227730452, 2361852424,
   2428436474, 2756734187, 3204031479, 3329325298]

/-- The SHA-256 initial hash value. -/
def shaH0 : List Nat :=
  [1779033703, 3144134277, 1013904242, 2773480762,
   1359893119, 2600822924, 528734635, 1541459225]

/-- Pad a byte message per FIPS 180-4: `0x80`, zeros, 8-byte big-endian bit
length. -/
def shaPad (msg : List Nat) : List Nat :=
  let L := msg.length
  let zeros := (64 - ((L + 9) % 64)) % 64
  let bitLen := L * 8
  msg ++ [0x80] ++ List.replicate zeros 0 ++
    [(bitLen >>> 56) % 256, (bitLen >>> 48) % 256, (bitLen >>> 40) % 256,
     (bitLen >>> 32) % 256, (bitLen >>> 24) % 256, (bitLen >>> 16) % 256,
     (bitLen >>> 8) % 256, bitLen % 256]

/-- Split a byte list into 64-byte blocks (fuel-bounded structural
recursion; `fuel` at least the list length suffices). -/
def toBlocks : Nat → List Nat → List (List Nat)
  | 0, _ => []
  | _, [] => []
  | fuel+1, bs => bs.take 64 :: toBlocks fuel (bs.drop 64)

/-- Big-endian 4-byte words out of a 64-byte block. -/
def toWords : Nat → List Nat → List Nat
  | 0, _ => []
  | fuel+1, b0 :: b1 :: b2 :: b3 :: rest =>
      (b0 * 16777216 + b1 * 65536 + b2 * 256 + b3) :: toWords fuel rest
  | _+1, _ => []

/-- Extend the 16-word message schedule to 64 words. -/
def extendW : Nat → List Nat → List Nat
  | 0, ws => ws
  | n+1, ws =>
      let k := ws.length
      let nw := w32 (smallSigma1 (ws.getD (k-2) 0) + ws.getD (k-7) 0 +
                     smallSigma0 (ws.getD (k-15) 0) + ws.getD (k-16) 0)
      extendW n (ws ++ [nw])

/-- The eight working variables of the SHA-256 compression loop. -/
structure ShaState where
  a : Nat
  b : Nat
  c : Nat
  d : Nat
  e : Nat
  f : Nat
  g : Nat
  h : Nat
deriving DecidableEq

/-- One round of the SHA-256 compression function. -/
def roundStep (st : ShaState) (kw : Nat × Nat) : ShaState :=
  let t1 := w32 (st.h + bigSigma1 st.e + chF st.e st.f st.g + kw.1 + kw.2)
  let t2 := w32 (bigSigma0 st.a + majF st.a st.b st.c)
  ⟨w32 (t1 + t2), st.a, st.b, st.c, w32 (st.d + t1), st.e, st.f, st.g⟩

/-- Compress one 64-byte block into the running hash. -/
def compress (hs : List Nat) (block : List Nat) : List Nat :=
  let ws := extendW 48 (toWords 16 block)
  let st0 : ShaState := ⟨hs.getD 0 0, hs.getD 1 0, hs.getD 2 0, hs.getD 3 0,
                         hs.getD 4 0, hs.getD 5 0, hs.getD 6 0, hs.getD 7 0⟩
  let stf := (shaK.zip ws).foldl roundStep st0
  [w32 (hs.getD 0 0 + stf.a), w32 (hs.getD 1 0 + stf.b), w32 (hs.getD 2 0 + stf.c),
   w32 (hs.getD 3 0 + stf.d), w32 (hs.getD 4 0 + stf.e), w32 (hs.getD 5 0 + stf.f),
   w32 (hs.getD 6 0 + stf.g), w32 (hs.getD 7 0 + stf.h)]

/-- SHA-256 of a byte message, as eight 32-bit words. -/
def sha256Words (msg : List Nat) : List Nat :=
  let padded := shaPad msg
  (toBlocks padded.length padded).foldl compress shaH0

/-- Lower-case hex digit. -/
def hexDigit (n : Nat) : Char :=
  if n < 10 then Char.ofNat (48 + n) else Char.ofNat (87 + n)

/-- Eight hex characters of a 32-bit word. -/
def wordHex (x : Nat) : List Char :=
  [hexDigit ((x >>> 28) % 16), hexDigit ((x >>> 24) % 16), hexDigit ((x >>> 20) % 16),
   hexDigit ((x >>> 16) % 16), hexDigit ((x >>> 12) % 16), hexDigit ((x >>> 8) % 16),
   hexDigit ((x >>> 4) % 16), hexDigit (x % 16)]

/-- SHA-256 hex digest of a byte message, as `hashlib.sha256(...).hexdigest()`
returns it. -/
def sha256Hex (msg : List Nat) : List Char :=
  (sha256Words msg).flatMap wordHex

/-- UTF-8 encoding of one character (`str.encode('utf-8')`). -/
def utf8Char (c : Char) : List Nat :=
  let n := c.toNat
  if n < 128 then [n]
  else if n < 2048 then [192 + n / 64, 128 + n % 64]
  else if n < 65536 then [224 + n / 4096, 128 + (n / 64) % 64, 128 + n % 64]
  else [240 + n / 262144, 128 + (n / 4096) % 64, 128 + (n / 64) % 64, 128 + n % 64]

/-- UTF-8 encoding of a string. -/
def utf8 (s : List Char) : List Nat := s.flatMap utf8Char

/-! ### The normalizer of `loop_guardian.normalize_output`

`normalize_output` applies nine `re.sub` substitutions in a fixed order.
Each substitution is embedded as a matcher (given the previous original
character, for the `\b` anchors, and the current suffix, it returns the
length of the match starting here, if any) plus a generic left-to-right
scanner `gsub` with Python's `re.sub` semantics: leftmost matches,
non-overlapping, replacements never rescanned.  The patterns use `\d`,
`\w`, `\s` on the ASCII fragment the repository exercises. -/

/-- Python `\w` on ASCII: letters, digits, underscore. -/
def isWordC (c : Char) : Bool := c.isAlphanum || c == '_'

/-- Python `\s` on ASCII. -/
def isWsC (c : Char) : Bool :=
  c == ' ' || c == '\t' || c == '\n' || c == '\r' ||
  c == Char.ofNat 11 || c == Char.ofNat 12

/-- Hex digit, as in `[0-9a-fA-F]`. -/
def isHexC (c : Char) : Bool :=
  c.isDigit || ('a' ≤ c && c ≤ 'f') || ('A' ≤ c && c ≤ 'F')

/-- Length of the maximal prefix whose characters satisfy `p` (a greedy
character-class run such as `\d+`). -/
def runLen (p : Char → Bool) : List Char → Nat
  | [] => 0
  | c :: rest => if p c then runLen p rest + 1 else 0

/-- Does `s` start with `lit`? -/
def matchLit : List Char → List Char → Bool
  | [], _ => true
  | _ :: _, [] => false
  | a :: as, b :: bs => a == b && matchLit as bs

/-- Does `s` start with `lit`, ASCII case-insensitively (for `re.IGNORECASE`)? -/
def matchLitCI : List Char → List Char → Bool
  | [], _ => true
  | _ :: _, [] => false
  | a :: as, b :: bs => a.toLower == b.toLower && matchLitCI as bs

/-- Trailing class `[\.\dZ]*` of the ISO-timestamp pattern. -/
def isoTailC (c : Char) : Bool := c == '.' || c.isDigit || c == 'Z'

/-- The fixed 19-character skeleton of the ISO-timestamp pattern:
4 digits, `-`, 2 digits, `-`, 2 digits, `[T\s]`, 2 digits, `:`, 2 digits,
`:`, 2 digits. -/
def isoShape (s : List Char) : Bool :=
  decide (19 ≤ s.length) &&
  (s.getD 0 ' ').isDigit && (s.getD 1 ' ').isDigit &&
  (s.getD 2 ' ').isDigit && (s.getD 3 ' ').isDigit &&
  (s.getD 4 ' ' == '-') && (s.getD 5 ' ').isDigit && (s.getD 6 ' ').isDigit &&
  (s.getD 7 ' ' == '-') && (s.getD 8 ' ').isDigit && (s.getD 9 ' ').isDigit &&
  (s.getD 10 ' ' == 'T' || isWsC (s.getD 10 ' ')) &&
  (s.getD 11 ' ').isDigit && (s.getD 12 ' ').isDigit && (s.getD 13 ' ' == ':') &&
  (s.getD 14 ' ').isDigit && (s.getD 15 ' ').isDigit && (s.getD 16 ' ' == ':') &&
  (s.getD 17 ' ').isDigit && (s.getD 18 ' ').isDigit

/-- Matcher for `\d{4}-\d{2}-\d{2}[T\s]\d{2}:\d{2}:\d{2}[\.\dZ]*`. -/
def isoMatch (s : List Char) : Option Nat :=
  if isoShape s then some (19 + runLen isoTailC (s.drop 19)) else none

/-- Matcher for `\b\d{10,}\b`: the maximal digit run here must be at least 10
long, with word boundaries on both sides (after the run the boundary can only
fail on a letter or underscore; shortening the greedy run cannot help since the
run would then end before another digit). -/
def wordBeforeB (prev : Option Char) : Bool :=
  match prev with
  | none => false
  | some c => isWordC c

def unixTsMatch (prev : Option Char) (s : List Char) : Option Nat :=
  if wordBeforeB prev then none
  else if 10 ≤ runLen Char.isDigit s then
    match (s.drop (runLen Char.isDigit s)).head? with
    | none => some (runLen Char.isDigit s)
    | some c => if isWordC c then none else some (runLen Char.isDigit s)
  else none

/-- Matcher for `0x[0-9a-fA-F]+`. -/
def hexAddrMatch (s : List Char) : Option Nat :=
  if s.getD 0 ' ' == '0' && s.getD 1 ' ' == 'x' then
    if 1 ≤ runLen isHexC (s.drop 2) then some (runLen isHexC (s.drop 2) + 2)
    else none
  else none

/-- Matcher for `iteration\s+\d+` with `re.IGNORECASE`. -/
def iterMatch (s : List Char) : Option Nat :=
  if matchLitCI "iteration".toList s then
    if 1 ≤ runLen isWsC (s.drop 9) then
      if 1 ≤ runLen Char.isDigit ((s.drop 9).drop (runLen isWsC (s.drop 9))) then
        some (9 + runLen isWsC (s.drop 9) +
          runLen Char.isDigit ((s.drop 9).drop (runLen isWsC (s.drop 9))))
      else none
    else none
  else none

/-- The character class `[\\\w\s\-\.]` of the Windows-path pattern. -/
def winClassC (c : Char) : Bool :=
  c == '\\' || isWordC c || isWsC c || c == '-' || c == '.'

/-- Matcher for `[a-zA-Z]:\\[\\\w\s\-\.]+`. -/
def winPathMatch (s : List Char) : Option Nat :=
  if (s.getD 0 ' ').isAlpha && s.getD 1 ' ' == ':' && s.getD 2 ' ' == '\\' then
    if 1 ≤ runLen winClassC (s.drop 3) then some (runLen winClassC (s.drop 3) + 3)
    else none
  else none

/-- The component class `[\w\-\.]` of the POSIX-path pattern. -/
def compC (c : Char) : Bool := isWordC c || c == '-' || c == '.'

/-- Greedy parse of `([\w\-\.]+/)+`: the lengths of the successive
slash-terminated components (fuel-bounded; fuel at least the list length
suffices). -/
def posixGroups : Nat → List Char → List Nat
  | 0, _ => []
  | fuel+1, s =>
    let r := runLen compC s
    if 1 ≤ r && (s.drop r).head? == some '/' then
      r :: posixGroups fuel (s.drop (r + 1))
    else []

/-- Matcher for `/([\w\-\.]+/)+[\w\-\.]+` with an explicit group-parsing
fuel, with the greedy group's one backtracking case: when no final component
follows the greedy groups, the last group gives up its slash and serves as the
final component (needs at least two groups). -/
def posixMatchF (fuel : ℕ) : List Char → Option Nat
  | '/' :: rest =>
    if 1 ≤ runLen compC (rest.drop (((posixGroups fuel rest).map (· + 1)).sum)) then
      if 1 ≤ (posixGroups fuel rest).length then
        some (1 + ((posixGroups fuel rest).map (· + 1)).sum +
          runLen compC (rest.drop (((posixGroups fuel rest).map (· + 1)).sum)))
      else none
    else if 2 ≤ (posixGroups fuel rest).length then
      some (((posixGroups fuel rest).map (· + 1)).sum)
    else none
  | _ => none

/-- Matcher for `/([\w\-\.]+/)+[\w\-\.]+` (the list length is always
enough fuel). -/
def posixMatch (s : List Char) : Option Nat := posixMatchF s.length s

/-- Matcher for `\b0x[0-9a-fA-F]{8,16}\b`: the maximal hex run after `0x`
must have length between 8 and 16 (a longer run leaves a hex character, hence
a word character, after every allowed cut, so the trailing boundary fails). -/
def memAddrMatch (prev : Option Char) (s : List Char) : Option Nat :=
  if wordBeforeB prev then none
  else
    match s with
    | '0' :: 'x' :: rest =>
      if 8 ≤ runLen isHexC rest && runLen isHexC rest ≤ 16 then
        match (rest.drop (runLen isHexC rest)).head? with
        | none => some (runLen isHexC rest + 2)
        | some c => if isWordC c then none else some (runLen isHexC rest + 2)
      else none
    | _ => none

/-- Matcher for `pid=\d+`. -/
def pidMatch : List Char → Option Nat
  | 'p' :: 'i' :: 'd' :: '=' :: rest =>
    if 1 ≤ runLen Char.isDigit rest then some (runLen Char.isDigit rest + 4)
    else none
  | _ => none

/-- Matcher for `tid=\d+`. -/
def tidMatch : List Char → Option Nat
  | 't' :: 'i' :: 'd' :: '=' :: rest =>
    if 1 ≤ runLen Char.isDigit rest then some (runLen Char.isDigit rest + 4)
    else none
  | _ => none

/-- One step past a match: the previous-character context becomes the last
consumed original character. -/
def lastConsumed (prev : Option Char) (consumed : List Char) : Option Char :=
  match consumed.getLast? with
  | none => prev
  | some c => some c

/-- The `re.sub` scanner: walk left to right; at each position either emit the
replacement for a match (continuing after its end in the original string) or
copy one character.  Fuel-bounded structural recursion; fuel at least the list
length suffices since every step consumes at least one character. -/
def gsubA (m : Option Char → List Char → Option Nat) (repl : List Char) :
    Nat → Option Char → List Char → List Char
  | 0, _, s => s
  | fuel+1, prev, s =>
    match s with
    | [] => []
    | c :: rest =>
      match m prev (c :: rest) with
      | some n =>
        if 1 ≤ n then
          repl ++ gsubA m repl fuel (lastConsumed prev ((c :: rest).take n))
            ((c :: rest).drop n)
        else c :: gsubA m repl fuel (some c) rest
      | none => c :: gsubA m repl fuel (some c) rest

/-- Global substitution, as `re.sub(pattern, repl, s)`. -/
def gsub (m : Option Char → List Char → Option Nat) (repl : List Char)
    (s : List Char) : List Char :=
  gsubA m repl s.length none s

/-- Lift a matcher that ignores the previous character. -/
def noPrev (m : List Char → Option Nat) : Option Char → List Char → Option Nat :=
  fun _ s => m s

/-- The nine substitutions of `normalize_output`, in source order. -/
def normalize_output (output : List Char) : List Char :=
  let s1 := gsub (noPrev isoMatch) ("[TIMESTAMP]".toList) output
  let s2 := gsub unixTsMatch ("[UNIX_TIMESTAMP]".toList) s1
  let s3 := gsub (noPrev hexAddrMatch) ("[HEX_ADDR]".toList) s2
  let s4 := gsub (noPrev iterMatch) ("iteration [N]".toList) s3
  let s5 := gsub (noPrev winPathMatch) ("[PATH]".toList) s4
  let s6 := gsub (noPrev posixMatch) ("[PATH]".toList) s5
  let s7 := gsub memAddrMatch ("[MEM_ADDR]".toList) s6
  let s8 := gsub (noPrev pidMatch) ("pid=[PID]".toList) s7
  gsub (noPrev tidMatch) ("tid=[TID]".toList) s8

/-- SHA-256 hex digest of the normalized output
(`compute_normalized_hash`). -/
def compute_normalized_hash (output : List Char) : List Char :=
  sha256Hex (utf8 (normalize_output output))

/-! ### The Loop Guardian (`loop_guardian.LoopGuardian`)

Python floats are embedded as exact rationals and the monotonic clock as an
explicit `now : ℚ` argument wherever the source reads `time.monotonic()`.
`max_iterations` is a Python `int`, hence embedded as `ℤ`. -/

structure LoopGuardian where
  start_time : ℚ
  iteration_count : ℕ
  retry_count : ℕ
  hash_history : List (List Char)
  max_iterations : ℤ
  max_time_minutes : ℚ
  base_temperature : ℚ
  completion_promise : List Char
deriving DecidableEq

/-- The configuration bag handed to `LoopGuardian.__init__`; absent keys fall
back to the documented defaults via `config.get`. -/
structure GuardianConfig where
  max_iterations : Option ℤ := none
  max_time_minutes : Option ℚ := none
  base_temperature : Option ℚ := none
  completion_promise : Option (List Char) := none

/-- `LoopGuardian.__init__`: counters zeroed, history empty, `start_time`
sampled from the monotonic clock, config defaults 25 / 60 / 0.7 /
"LOOP_COMPLETE". -/
def LoopGuardian.init (config : GuardianConfig) (now : ℚ) : LoopGuardian :=
  { start_time := now
    iteration_count := 0
    retry_count := 0
    hash_history := []
    max_iterations := config.max_iterations.getD 25
    max_time_minutes := config.max_time_minutes.getD 60
    base_temperature := config.base_temperature.getD (7/10)
    completion_promise := config.completion_promise.getD ("LOOP_COMPLETE".toList) }

/-- `increment_iteration`. -/
def LoopGuardian.increment_iteration (g : LoopGuardian) : LoopGuardian :=
  { g with iteration_count := g.iteration_count + 1 }

/-- `increment_retry`. -/
def LoopGuardian.increment_retry (g : LoopGuardian) : LoopGuardian :=
  { g with retry_count := g.retry_count + 1 }

/-- `should_terminate`: iteration ceiling first, then elapsed monotonic time
against `max_time_minutes * 60`. -/
def LoopGuardian.should_terminate (g : LoopGuardian) (now : ℚ) : Bool :=
  if (g.iteration_count : ℤ) ≥ g.max_iterations then true
  else if now - g.start_time ≥ g.max_time_minutes * 60 then true
  else false

/-- `get_escalated_temperature` with an explicit retry count:
`base + [0.0, 0.3, 0.6][min(retry_count, 2)]`. -/
def LoopGuardian.get_escalated_temperature (g : LoopGuardian)
    (retry_count : ℕ) : ℚ :=
  let escalation_steps : List ℚ := [0, 3/10, 6/10]
  let escalation := escalation_steps.getD (min retry_count (escalation_steps.length - 1)) 0
  g.base_temperature + escalation

/-- Python's `l[-3:]`: the last `n` elements. -/
def lastN (n : ℕ) (l : List α) : List α := l.drop (l.length - n)

/-- `detect_loop`: below 3 iterations return false untouched; otherwise flag a
digest already among the last 3 recorded ones, and only append the digest when
it was not flagged.  Returns the result together with the updated guardian. -/
def LoopGuardian.detect_loop (g : LoopGuardian) (code_output : List Char) :
    Bool × LoopGuardian :=
  if g.iteration_count < 3 then (false, g)
  else
    let current_hash := compute_normalized_hash code_output
    if current_hash ∈ lastN 3 g.hash_history then (true, g)
    else (false, { g with hash_history := g.hash_history ++ [current_hash] })

/-- `reset`: re-sample the clock, zero both counters, clear the history. -/
def LoopGuardian.reset (g : LoopGuardian) (now : ℚ) : LoopGuardian :=
  { g with start_time := now, iteration_count := 0, retry_count := 0,
           hash_history := [] }

/-! ### The Task Runner retry loop

`task_runner._get_temperature_for_attempt` and the attempt loop of
`_execute_task_logic` (`src/hybridconductor/worker/task_runner.py`), whose
control flow `worker.execute_task` (`src/worker.py`) shares.  The generation
step and the BIST subprocess are external effects, embedded as oracles: per
attempt the generated response text, and whether every written block passed
BIST (with at least one file saved).  Loop detection uses the runner's own
`_detect_loop` heuristic, embedded faithfully below. -/

/-- `_get_temperature_for_attempt`: fixed schedule `[0.7, 1.0, 1.3]`, capped. -/
def get_temperature_for_attempt (attempt : ℕ) : ℚ :=
  let temperatures : List ℚ := [7/10, 1, 13/10]
  temperatures.getD (min attempt (temperatures.length - 1)) 0

/-- Is `needle` a contiguous substring of `hay`? (Python's `in` on `str`.) -/
def containsSub (needle : List Char) : List Char → Bool
  | [] => matchLit needle []
  | c :: rest => matchLit needle (c :: rest) || containsSub needle rest

/-- `check_completion_promise`: substring containment of the configured
marker. -/
def LoopGuardian.check_completion_promise (g : LoopGuardian)
    (output : List Char) : Bool :=
  containsSub g.completion_promise output

/-- ASCII lower-casing of a string (Python `str.lower()` on the ASCII
fragment). -/
def lowerStr (s : List Char) : List Char := s.map Char.toLower

/-- `task_runner._detect_loop`: stateless heuristic — below attempt 2 no loop;
otherwise look for obvious infinite-loop phrases in the lower-cased code. -/
def runner_detect_loop (code : List Char) (attempt : ℕ) : Bool :=
  if attempt < 2 then false
  else
    let loop_patterns : List (List Char) :=
      ["while true:".toList, "while(1)".toList, "for(;;)".toList,
       "loop indefinitely".toList]
    loop_patterns.any (fun p => containsSub p (lowerStr code))

/-- What one generation attempt produced: the response text and whether every
block passed BIST with at least one file saved (the success condition of the
attempt). -/
structure AttemptOracle where
  response : ℕ → List Char
  bist_success : ℕ → Bool

/-- Observable outcome of one `_execute_task_logic` run: the returned boolean
and how many `mcp_client.commit` calls happened. -/
structure RunResult where
  success : Bool
  commits : ℕ
  attempts_used : ℕ
deriving DecidableEq

/-- The `for attempt in range(max_iterations)` body of `_execute_task_logic`:
on BIST success commit and return True; on failure continue when the loop
heuristic fires, otherwise break once `attempt >= 2`; falling off the range
returns False. -/
def execute_task_loop (oracle : AttemptOracle) :
    ℕ → ℕ → ℕ → RunResult
  | 0, attempt, commits => ⟨false, commits, attempt⟩
  | fuel+1, attempt, commits =>
    let response := oracle.response attempt
    if oracle.bist_success attempt then
      ⟨true, commits + 1, attempt + 1⟩
    else if runner_detect_loop response attempt then
      execute_task_loop oracle fuel (attempt + 1) commits
    else if attempt ≥ 2 then
      ⟨false, commits, attempt + 1⟩
    else
      execute_task_loop oracle fuel (attempt + 1) commits

/-- `_execute_task_logic` for a nonnegative `max_iterations` (Python's
`range(max_iterations)` is empty for anything below 1). -/
def execute_task_model (oracle : AttemptOracle) (max_iterations : ℕ) : RunResult :=
  execute_task_loop oracle max_iterations 0 0

/-! ### The Isolation Client (`McpClient`)

Two copies exist: `src/hybridconductor/mcp/client.py` and the legacy one in
`src/worker.py`.  Network and subprocess outcomes are external effects,
embedded as an environment record; each method is embedded as the exception
behaviour it exhibits (`returned` when the Python call returns normally,
`raised` when an exception escapes to the caller). -/

/-- `_sanitize_branch_name` (identical in both copies): keep alphanumerics,
`-`, `_`; then truncate to 50 characters. -/
def sanitize_branch_name (name : List Char) : List Char :=
  (name.filter (fun c => c.isAlphanum || c == '-' || c == '_')).take 50

/-- Result of a `subprocess.run(..., check=True)` call: either a zero exit or
a raised `SubprocessError`. -/
inductive GitOutcome
  | ok
  | failed
deriving DecidableEq

/-- The external world one client call sees. -/
structure McpEnv where
  /-- Did the MCP network POST return a 2xx (no `RequestException`)? -/
  networkOk : Bool
  /-- Outcome of `git add .` in the commit fallback. -/
  addResult : GitOutcome
  /-- Outcome of `git commit -m ...` in the commit fallback. -/
  commitResult : GitOutcome
  /-- Outcome of `git checkout -b <name>` in the create fallback. -/
  checkoutNewResult : GitOutcome
  /-- Outcome of `git checkout <name>` in the switch fallback. -/
  checkoutResult : GitOutcome

/-- How a Python call ends for its caller. -/
inductive CallResult
  | returned
  | raised
deriving DecidableEq

/-- `McpClient._commit_subprocess` of `src/hybridconductor/mcp/client.py`:
`git add .` then `git commit`; a `SubprocessError` from either is caught,
logged, and deliberately not re-raised (the `raise` is commented out). -/
def client_commit_subprocess (env : McpEnv) : CallResult :=
  match env.addResult with
  | .failed => .returned
  | .ok =>
    match env.commitResult with
    | .failed => .returned
    | .ok => .returned

/-- `McpClient._commit_subprocess` of `src/worker.py`: same two git calls, but
the `except` block ends in `raise`. -/
def worker_commit_subprocess (env : McpEnv) : CallResult :=
  match env.addResult with
  | .failed => .raised
  | .ok =>
    match env.commitResult with
    | .failed => .raised
    | .ok => .returned

/-- `_create_branch_subprocess` (identical in both copies): `git checkout -b`;
the `except` block logs and re-raises. -/
def create_branch_subprocess (env : McpEnv) : CallResult :=
  match env.checkoutNewResult with
  | .failed => .raised
  | .ok => .returned

/-- `_switch_branch_subprocess` (identical in both copies): `git checkout`;
the `except` block logs and re-raises. -/
def switch_branch_subprocess (env : McpEnv) : CallResult :=
  match env.checkoutResult with
  | .failed => .raised
  | .ok => .returned

/-- `McpClient.commit` of `src/hybridconductor/mcp/client.py`: POST to the MCP
server, falling back to `_commit_subprocess` on any `RequestException`
(`enabled = false` short-circuits straight to the fallback). -/
def client_commit (enabled : Bool) (env : McpEnv) : CallResult :=
  if !enabled then client_commit_subprocess env
  else if env.networkOk then .returned
  else client_commit_subprocess env

/-- `McpClient.commit` of `src/worker.py`. -/
def worker_commit (env : McpEnv) : CallResult :=
  if env.networkOk then .returned
  else worker_commit_subprocess env

/-- `McpClient.create_branch` of `src/hybridconductor/mcp/client.py`; the
fallback's exception propagates to the caller. -/
def client_create_branch (enabled : Bool) (env : McpEnv) : CallResult :=
  if !enabled then create_branch_subprocess env
  else if env.networkOk then .returned
  else create_branch_subprocess env

/-- `McpClient.switch_branch` of `src/hybridconductor/mcp/client.py`. -/
def client_switch_branch (enabled : Bool) (env : McpEnv) : CallResult :=
  if !enabled then switch_branch_subprocess env
  else if env.networkOk then .returned
  else switch_branch_subprocess env

/-- `McpClient.create_branch` of `src/worker.py`. -/
def worker_create_branch (env : McpEnv) : CallResult :=
  if env.networkOk then .returned
  else create_branch_subprocess env

/-- `McpClient.switch_branch` of `src/worker.py`. -/
def worker_switch_branch (env : McpEnv) : CallResult :=
  if env.networkOk then .returned
  else switch_branch_subprocess env

/-! ### Orchestrator persistence (`fsm.Orchestrator.pause` / `resume`)

`fsm.py` serializes `{current_state, complexity_mode, loop_guardian,
timestamp}` and restores the first three on resume.  The guardian's
`to_dict`/`from_dict` live in `hybridconductor/core/loop_guardian.py`, which
is absent from the tree; they are modelled from the spec below. -/

inductive State
  | planning
  | building
  | verifying
  | debugging
  | complete
  | failed
deriving DecidableEq

/-- `State.value` (the string payload of the enum). -/
def State.value : State → List Char
  | .planning => "planning".toList
  | .building => "building".toList
  | .verifying => "verifying".toList
  | .debugging => "debugging".toList
  | .complete => "complete".toList
  | .failed => "failed".toList

/-- `State(data["current_state"])`: enum lookup by value, `none` when the
stored string names no state (Python raises `ValueError`, caught by
`resume`'s `except`). -/
def State.ofValue (s : List Char) : Option State :=
  if s = "planning".toList then some .planning
  else if s = "building".toList then some .building
  else if s = "verifying".toList then some .verifying
  else if s = "debugging".toList then some .debugging
  else if s = "complete".toList then some .complete
  else if s = "failed".toList then some .failed
  else none

inductive ComplexityMode
  | fast
  | streamlined
  | full
deriving DecidableEq

/-- `ComplexityMode.value`. -/
def ComplexityMode.value : ComplexityMode → List Char
  | .fast => "fast".toList
  | .streamlined => "streamlined".toList
  | .full => "full".toList

/-- `set_complexity_mode`: `mode_map.get(mode, ComplexityMode.STREAMLINED)`. -/
def set_complexity_mode (mode : List Char) : ComplexityMode :=
  if mode = "fast".toList then .fast
  else if mode = "streamlined".toList then .streamlined
  else if mode = "full".toList then .full
  else .streamlined

/-- Modelled from the spec: the serializable `guardian_snapshot` view produced
by `LoopGuardian.to_dict` of the missing `hybridconductor/core/loop_guardian.py`
— iteration counter, retry counter, elapsed-time basis, digest history. -/
structure GuardianSnapshot where
  iteration_count : ℕ
  retry_count : ℕ
  elapsed : ℚ
  hash_history : List (List Char)
deriving DecidableEq

/-- Modelled from the spec: `LoopGuardian.to_dict` of the missing
`hybridconductor/core/loop_guardian.py` — serialize the counters, the digest
history, and the elapsed monotonic time as the time basis. -/
def LoopGuardian.to_dict (g : LoopGuardian) (now : ℚ) : GuardianSnapshot :=
  ⟨g.iteration_count, g.retry_count, now - g.start_time, g.hash_history⟩

/-- Modelled from the spec: `LoopGuardian.from_dict` of the missing
`hybridconductor/core/loop_guardian.py` — restore the counters and history
and re-base `start_time` so the recorded elapsed time is preserved. -/
def LoopGuardian.from_dict (g : LoopGuardian) (d : GuardianSnapshot)
    (now : ℚ) : LoopGuardian :=
  { g with iteration_count := d.iteration_count
           retry_count := d.retry_count
           start_time := now - d.elapsed
           hash_history := d.hash_history }

/-- The record `pause` writes to `state/session.json`. -/
structure SessionData where
  current_state : List Char
  complexity_mode : List Char
  loop_guardian : GuardianSnapshot
  timestamp : List Char
deriving DecidableEq

/-- The orchestrator state that `pause`/`resume` persists and restores. -/
structure OrchestratorState where
  current_state : State
  complexity_mode : ComplexityMode
  loop_guardian : LoopGuardian
deriving DecidableEq

/-- `Orchestrator.pause`: serialize `{current_state.value,
complexity_mode.value, loop_guardian.to_dict(), timestamp}`. -/
def Orchestrator.pause (o : OrchestratorState) (now : ℚ) (ts : List Char) :
    SessionData :=
  ⟨o.current_state.value, o.complexity_mode.value, o.loop_guardian.to_dict now, ts⟩

/-- `Orchestrator.resume`: restore `current_state` via the enum constructor,
`complexity_mode` via `set_complexity_mode`, and the guardian via
`from_dict`; any failure is caught and reported as `none`. -/
def Orchestrator.resume (o : OrchestratorState) (d : SessionData) (now : ℚ) :
    Option OrchestratorState :=
  match State.ofValue d.current_state with
  | none => none
  | some st =>
    some { current_state := st
           complexity_mode := set_complexity_mode d.complexity_mode
           loop_guardian := o.loop_guardian.from_dict d.loop_guardian now }

/-! ### Helper instances for witnesses -/

/-- A guardian three iterations in with an empty digest history. -/
def guardianAtThree : LoopGuardian :=
  { start_time := 0, iteration_count := 3, retry_count := 0, hash_history := [],
    max_iterations := 25, max_time_minutes := 60, base_temperature := 7/10,
    completion_promise := "LOOP_COMPLETE".toList }

/-- A guardian three iterations in whose history already holds the digest of
"x". -/
def guardianSeenX : LoopGuardian :=
  { guardianAtThree with hash_history := [compute_normalized_hash ("x".toList)] }

/-- An attempt oracle whose generation always fails BIST and never trips the
loop heuristic. -/
def failingOracle : AttemptOracle :=
  { response := fun _ => "print".toList, bist_success := fun _ => false }

/-- A client environment where the network call fails and so do the commit
and checkout subprocesses. -/
def envAllFail : McpEnv :=
  { networkOk := false, addResult := .ok, commitResult := .failed,
    checkoutNewResult := .failed, checkoutResult := .failed }

/-! ### Claim C2: texts differing only in volatile tokens

The claim quantifies over pairs of texts that differ only in tokens of the
normalizer's volatile categories.  A token of a category is a string the
corresponding source pattern matches in full; two texts differ only in such
tokens when they decompose into the same literals around holes holding two
same-category tokens. -/

inductive VolCat
  | isoTimestamp
  | decimalRun
  | hexAddr
  | iterPhrase
  | winPath
  | posixPath
  | pidKV
  | tidKV
deriving DecidableEq

/-- A token of a category: a string the category's source pattern matches in
full (for decimal runs, 10 or more digits). -/
def catShape : VolCat → List Char → Bool
  | .isoTimestamp, t => isoMatch t == some t.length
  | .decimalRun, t => t.all Char.isDigit && decide (10 ≤ t.length)
  | .hexAddr, t => hexAddrMatch t == some t.length
  | .iterPhrase, t => iterMatch t == some t.length
  | .winPath, t => winPathMatch t == some t.length
  | .posixPath, t => posixMatch t == some t.length
  | .pidKV, t => pidMatch t == some t.length
  | .tidKV, t => tidMatch t == some t.length

/-- One varying occurrence: the category and the two token variants. -/
structure VolHole where
  cat : VolCat
  left : List Char
  right : List Char

/-- Assemble a text from a leading literal and hole/literal pairs, taking one
side of every hole. -/
def interleave (side : VolHole → List Char) (l0 : List Char) :
    List (VolHole × List Char) → List Char
  | [] => l0
  | (h, l) :: rest => l0 ++ side h ++ interleave side l rest

/-- Both variants of every hole are tokens of the hole's category. -/
def holesShaped (es : List (VolHole × List Char)) : Bool :=
  es.all (fun e => catShape e.1.cat e.1.left && catShape e.1.cat e.1.right)

/-- The claim's relation: two texts differ only in volatile tokens — the same
literals, and at each hole two tokens of the same category. -/
def DifferOnlyInVolatile (a b : List Char) : Prop :=
  ∃ l0 es, holesShaped es = true ∧
    a = interleave (fun h => h.left) l0 es ∧
    b = interleave (fun h => h.right) l0 es

/-- Characters inert for every pattern of the normalizer: outside every
character class the patterns use (word, whitespace, hex, path-component,
Windows-path, timestamp-tail) and none of their structural characters. -/
def neutralC (c : Char) : Bool :=
  !(isWordC c) && !(isWsC c) && !(isHexC c) && !(compC c) && !(winClassC c) &&
  !(isoTailC c) && !(c == '/') && !(c == ':') && !(c == '=') && !(c == '-') &&
  !(c == '.') && !(c == '\\')

/-- A neutral-or-absent previous character for the word-boundary anchors. -/
def prevNeutral (prev : Option Char) : Bool :=
  match prev with
  | none => true
  | some c => neutralC c

/-- The scanner with its canonical fuel and an explicit previous character. -/
def gsubF (m : Option Char → List Char → Option Nat) (r : List Char)
    (prev : Option Char) (s : List Char) : List Char :=
  gsubA m r s.length prev s

/-- No pattern occurrence starts anywhere inside `u` when `s` follows it:
walking `u` is pure copying. -/
def NoMatchWithin (m : Option Char → List Char → Option Nat) :
    Option Char → List Char → List Char → Prop
  | _, [], _ => True
  | prev, c :: u, s =>
    m prev (c :: (u ++ s)) = none ∧ NoMatchWithin m (some c) u s

/-! ### Traversal lemmas: no pattern starts inside foreign material -/

/-- The first character of what follows, if any, is neutral. -/
def headNeutral : List Char → Bool
  | [] => true
  | c :: _ => neutralC c

/-- Does the string contain a run of 10 or more digits? -/
def hasLongDigitRun : List Char → Bool
  | [] => false
  | c :: rest =>
    decide (10 ≤ runLen Char.isDigit (c :: rest)) || hasLongDigitRun rest

/-! ### The pass engine: walking one substitution across an assembled text -/

/-- The position of each category's substitution in `normalize_output`
(pass 7, the memory-address pass, has no category: its tokens are not part of
the claim). -/
def passOf : VolCat → ℕ
  | .isoTimestamp => 1
  | .decimalRun => 2
  | .hexAddr => 3
  | .iterPhrase => 4
  | .winPath => 5
  | .posixPath => 6
  | .pidKV => 8
  | .tidKV => 9

/-- The replacement string each category's pass inserts. -/
def placeholder : VolCat → List Char
  | .isoTimestamp => "[TIMESTAMP]".toList
  | .decimalRun => "[UNIX_TIMESTAMP]".toList
  | .hexAddr => "[HEX_ADDR]".toList
  | .iterPhrase => "iteration [N]".toList
  | .winPath => "[PATH]".toList
  | .posixPath => "[PATH]".toList
  | .pidKV => "pid=[PID]".toList
  | .tidKV => "tid=[TID]".toList

/-- The amendment's restriction on tokens: iteration and pid/tid tokens hold
no run of ten or more digits (which the decimal pass would clobber), and path
tokens are digit-free (digits inside paths trip the timestamp passes). -/
def tokenSafe : VolCat → List Char → Bool
  | .iterPhrase, t => !hasLongDigitRun t
  | .pidKV, t => !hasLongDigitRun t
  | .tidKV, t => !hasLongDigitRun t
  | .winPath, t => t.all (fun c => !c.isDigit)
  | .posixPath, t => t.all (fun c => !c.isDigit)
  | _, _ => true

/-- The text one side shows when the first `k - 1` passes have run: holes of
earlier passes already carry their placeholder. -/
def pickA (k : ℕ) (side : VolHole → List Char) : VolHole → List Char :=
  fun h => if passOf h.cat < k then placeholder h.cat else side h

/-- Both variants of every hole satisfy the amendment's token restriction. -/
def entriesSafe (es : List (VolHole × List Char)) : Bool :=
  es.all (fun e => tokenSafe e.1.cat e.1.left && tokenSafe e.1.cat e.1.right)

/-- The separating literals are neutral, and every literal between two holes
is nonempty. -/
def litsOk : List (VolHole × List Char) → Bool
  | [] => true
  | (_, l) :: rest => l.all neutralC && (rest.isEmpty || !l.isEmpty) && litsOk rest

/-- The amended claim's relation: the two texts decompose into the same
neutral literals around same-category token pairs, adjacent holes separated
by at least one neutral character, and tokens within the amendment's
restriction. -/
def DifferOnlyInVolatileSep (a b : List Char) : Prop :=
  ∃ l0 es, holesShaped es = true ∧ entriesSafe es = true ∧
    litsOk es = true ∧ l0.all neutralC = true ∧
    a = interleave (fun h => h.left) l0 es ∧
    b = interleave (fun h => h.right) l0 es

/-! ### Theorems for the claims -/

/-- C3: `should_terminate()` is true iff the iteration ceiling or the elapsed
monotonic-time ceiling is reached; a `max_iterations` of 0 and a zero or
negative `max_time_minutes` each terminate immediately. -/
theorem should_terminate_spec (g : LoopGuardian) (now : ℚ)
    (hmono : g.start_time ≤ now) :
    (g.should_terminate now = true ↔
      (g.max_iterations ≤ (g.iteration_count : ℤ) ∨
        g.max_time_minutes * 60 ≤ now - g.start_time)) ∧
    (g.max_iterations ≤ 0 → g.should_terminate now = true) ∧
    (g.max_time_minutes ≤ 0 → g.should_terminate now = true) := by
  have hiff : g.should_terminate now = true ↔
      (g.max_iterations ≤ (g.iteration_count : ℤ) ∨
        g.max_time_minutes * 60 ≤ now - g.start_time) := by
    unfold LoopGuardian.should_terminate
    split
    · next hit => simp only [true_iff]; exact Or.inl hit
    · next hit =>
        split
        · next htime => simp only [true_iff]; exact Or.inr htime
        · next htime =>
            simp only [Bool.false_eq_true, false_iff]
            push_neg
            exact ⟨lt_of_not_le hit, lt_of_not_le htime⟩
  refine ⟨hiff, fun h0 => ?_, fun ht => ?_⟩
  · exact hiff.mpr (Or.inl (le_trans h0 (by exact_mod_cast Int.ofNat_nonneg _)))
  · refine hiff.mpr (Or.inr ?_)
    have h60 : g.max_time_minutes * 60 ≤ 0 := by nlinarith
    linarith

/-- C3 witness: a guardian built with `max_iterations = 0` terminates on the
first check. -/
theorem should_terminate_spec_witness :
    (LoopGuardian.init { max_iterations := some 0 } 0).start_time ≤ (0 : ℚ) ∧
    ((((LoopGuardian.init { max_iterations := some 0 } 0).should_terminate 0 = true) ↔
      ((LoopGuardian.init { max_iterations := some 0 } 0).max_iterations ≤
          ((LoopGuardian.init { max_iterations := some 0 } 0).iteration_count : ℤ) ∨
        (LoopGuardian.init { max_iterations := some 0 } 0).max_time_minutes * 60 ≤
          0 - (LoopGuardian.init { max_iterations := some 0 } 0).start_time)) ∧
      ((LoopGuardian.init { max_iterations := some 0 } 0).max_iterations ≤ 0 →
        (LoopGuardian.init { max_iterations := some 0 } 0).should_terminate 0 = true) ∧
      ((LoopGuardian.init { max_iterations := some 0 } 0).max_time_minutes ≤ 0 →
        (LoopGuardian.init { max_iterations := some 0 } 0).should_terminate 0 = true)) :=
  ⟨le_refl 0, should_terminate_spec (LoopGuardian.init { max_iterations := some 0 } 0) 0 (le_refl 0)⟩

/-- C4: `escalated_temperature(r)` equals `base + [0.0, 0.3, 0.6][min(r, 2)]`,
is monotone in the retry count, and on a guardian configured with base
temperature 0.7 takes the values 0.7, 1.0, 1.3, 1.3 at r = 0, 1, 2, 5. -/
theorem escalated_temperature_spec (g : LoopGuardian) (r s : ℕ) (hrs : r ≤ s) :
    g.get_escalated_temperature r =
      g.base_temperature + ([(0 : ℚ), 3/10, 6/10].getD (min r 2) 0) ∧
    g.get_escalated_temperature r ≤ g.get_escalated_temperature s ∧
    (LoopGuardian.init { base_temperature := some (7/10) } 0).get_escalated_temperature 0 = 7/10 ∧
    (LoopGuardian.init { base_temperature := some (7/10) } 0).get_escalated_temperature 1 = 1 ∧
    (LoopGuardian.init { base_temperature := some (7/10) } 0).get_escalated_temperature 2 = 13/10 ∧
    (LoopGuardian.init { base_temperature := some (7/10) } 0).get_escalated_temperature 5 = 13/10 := by
  have key : ∀ (t : ℕ),
      g.get_escalated_temperature t =
        g.base_temperature + ([(0 : ℚ), 3/10, 6/10].getD (min t 2) 0) := by
    intro t
    rfl
  have val : ∀ (t : ℕ), ([(0 : ℚ), 3/10, 6/10].getD (min t 2) 0) =
      if t = 0 then 0 else if t = 1 then 3/10 else 6/10 := by
    intro t
    match t with
    | 0 => rfl
    | 1 => rfl
    | (k+2) =>
        have h2 : min (k + 2) 2 = 2 := by omega
        rw [h2]
        rfl
  refine ⟨key r, ?_, by norm_num [LoopGuardian.get_escalated_temperature, LoopGuardian.init],
    by norm_num [LoopGuardian.get_escalated_temperature, LoopGuardian.init],
    by norm_num [LoopGuardian.get_escalated_temperature, LoopGuardian.init],
    by norm_num [LoopGuardian.get_escalated_temperature, LoopGuardian.init]⟩
  rw [key r, key s, val r, val s]
  have hstep : (if r = 0 then (0:ℚ) else if r = 1 then 3/10 else 6/10) ≤
      (if s = 0 then (0:ℚ) else if s = 1 then 3/10 else 6/10) := by
    split_ifs <;> first | omega | norm_num
  linarith

/-- C4 witness: the spec at retry counts 1 ≤ 2 on the default guardian. -/
theorem escalated_temperature_spec_witness :
    (1 : ℕ) ≤ 2 ∧
    ((LoopGuardian.init {} 0).get_escalated_temperature 1 =
      (LoopGuardian.init {} 0).base_temperature + ([(0 : ℚ), 3/10, 6/10].getD (min 1 2) 0) ∧
    (LoopGuardian.init {} 0).get_escalated_temperature 1 ≤
      (LoopGuardian.init {} 0).get_escalated_temperature 2 ∧
    (LoopGuardian.init { base_temperature := some (7/10) } 0).get_escalated_temperature 0 = 7/10 ∧
    (LoopGuardian.init { base_temperature := some (7/10) } 0).get_escalated_temperature 1 = 1 ∧
    (LoopGuardian.init { base_temperature := some (7/10) } 0).get_escalated_temperature 2 = 13/10 ∧
    (LoopGuardian.init { base_temperature := some (7/10) } 0).get_escalated_temperature 5 = 13/10) :=
  ⟨by norm_num, escalated_temperature_spec (LoopGuardian.init {} 0) 1 2 (by norm_num)⟩

/-- C5: the Task Runner's fixed three-tier schedule `[0.7, 1.0, 1.3]` agrees
with the Guardian's `escalated_temperature` under the default base temperature
0.7, at every attempt index. -/
theorem runner_temperature_refines_guardian (attempt : ℕ) :
    get_temperature_for_attempt attempt =
      (LoopGuardian.init {} 0).get_escalated_temperature attempt := by
  match attempt with
  | 0 => norm_num [get_temperature_for_attempt, LoopGuardian.get_escalated_temperature,
      LoopGuardian.init]
  | 1 => norm_num [get_temperature_for_attempt, LoopGuardian.get_escalated_temperature,
      LoopGuardian.init]
  | (k+2) =>
      have h2 : min (k + 2) 2 = 2 := by omega
      unfold get_temperature_for_attempt LoopGuardian.get_escalated_temperature
      norm_num [h2, LoopGuardian.init]

/-- C8: branch-name sanitization keeps only alphanumerics, hyphens and
underscores, caps the length at 50, equals filter-then-truncate, maps
`"../../etc/passwd"` to `"etcpasswd"`, and truncates a 100-character name to
50 characters. -/
theorem sanitize_branch_name_spec (name : List Char) :
    ((sanitize_branch_name name).all
      (fun c => c.isAlphanum || c == '-' || c == '_')) = true ∧
    (sanitize_branch_name name).length ≤ 50 ∧
    sanitize_branch_name name =
      (name.filter (fun c => c.isAlphanum || c == '-' || c == '_')).take 50 ∧
    sanitize_branch_name ("../../etc/passwd".toList) = "etcpasswd".toList ∧
    sanitize_branch_name (List.replicate 100 'a') = List.replicate 50 'a' := by
  refine ⟨?_, ?_, rfl, by decide, by decide⟩
  · rw [List.all_eq_true]
    intro c hc
    have hf := List.mem_of_mem_take hc
    exact (List.mem_filter.mp hf).2
  · calc (sanitize_branch_name name).length
        ≤ 50 := by
          unfold sanitize_branch_name
          rw [List.length_take]
          exact min_le_left _ _

/-- C1: the code's actual `detect_loop` trace on a guardian at three
iterations with empty history, fed the same output four times, is
false, true, true, true — the duplicate is flagged from the second identical
call on, because the membership test runs against a history that already
contains this call's digest.  (The claim, the spec, and the module's own
test suite expect false, false, false, true.) -/
theorem detect_loop_trace (g : LoopGuardian) (s : List Char)
    (h3 : 3 ≤ g.iteration_count) (hh : g.hash_history = []) :
    (g.detect_loop s).1 = false ∧
    ((g.detect_loop s).2.detect_loop s).1 = true ∧
    (((g.detect_loop s).2.detect_loop s).2.detect_loop s).1 = true ∧
    ((((g.detect_loop s).2.detect_loop s).2.detect_loop s).2.detect_loop s).1 = true := by
  have hlt : ¬ g.iteration_count < 3 := by omega
  have first : g.detect_loop s =
      (false, { g with hash_history := [compute_normalized_hash s] }) := by
    unfold LoopGuardian.detect_loop
    rw [if_neg hlt, hh]
    simp [lastN]
  have second : ({ g with hash_history := [compute_normalized_hash s] } :
      LoopGuardian).detect_loop s =
      (true, { g with hash_history := [compute_normalized_hash s] }) := by
    unfold LoopGuardian.detect_loop
    simp only
    rw [if_neg hlt]
    simp [lastN]
  refine ⟨?_, ?_, ?_, ?_⟩ <;> simp [first, second]

/-- C1 witness: the trace theorem applied to a concrete guardian at three
iterations fed "x" four times. -/
theorem detect_loop_trace_witness :
    (3 ≤ guardianAtThree.iteration_count ∧ guardianAtThree.hash_history = []) ∧
    ((guardianAtThree.detect_loop ("x".toList)).1 = false ∧
    ((guardianAtThree.detect_loop ("x".toList)).2.detect_loop ("x".toList)).1 = true ∧
    (((guardianAtThree.detect_loop ("x".toList)).2.detect_loop ("x".toList)).2.detect_loop ("x".toList)).1 = true ∧
    ((((guardianAtThree.detect_loop ("x".toList)).2.detect_loop ("x".toList)).2.detect_loop ("x".toList)).2.detect_loop ("x".toList)).1 = true) :=
  ⟨⟨by decide, rfl⟩, detect_loop_trace guardianAtThree ("x".toList) (by decide) rfl⟩

/-- C10: whenever `detect_loop` returns true it leaves the guardian unchanged
— no append, counters untouched — so an immediately repeated call with the
same output returns true again. -/
theorem detect_loop_frame (g : LoopGuardian) (s : List Char)
    (h : (g.detect_loop s).1 = true) :
    (g.detect_loop s).2 = g ∧
    ((g.detect_loop s).2.detect_loop s).1 = true := by
  by_cases h3 : g.iteration_count < 3
  · exfalso
    unfold LoopGuardian.detect_loop at h
    rw [if_pos h3] at h
    exact Bool.false_ne_true h
  · by_cases hm : compute_normalized_hash s ∈ lastN 3 g.hash_history
    · have hd : g.detect_loop s = (true, g) := by
        unfold LoopGuardian.detect_loop
        rw [if_neg h3, if_pos hm]
      rw [hd]
      exact ⟨rfl, by rw [hd]⟩
    · exfalso
      unfold LoopGuardian.detect_loop at h
      rw [if_neg h3, if_neg hm] at h
      exact Bool.false_ne_true h

/-- C10 witness: the frame theorem on a guardian whose history already holds
the digest of "x", fed "x". -/
theorem detect_loop_frame_witness :
    (guardianSeenX.detect_loop ("x".toList)).1 = true ∧
    ((guardianSeenX.detect_loop ("x".toList)).2 = guardianSeenX ∧
      ((guardianSeenX.detect_loop ("x".toList)).2.detect_loop ("x".toList)).1 = true) :=
  have h : (guardianSeenX.detect_loop ("x".toList)).1 = true := by
    unfold LoopGuardian.detect_loop guardianSeenX guardianAtThree
    simp [lastN]
  ⟨h, detect_loop_frame guardianSeenX ("x".toList) h⟩

/-- C6: when every attempt fails BIST and the loop heuristic never fires, the
task-runner loop stops after exactly 3 attempts for any `max_iterations ≥ 3`,
returns failure, and commits nothing. -/
theorem execute_task_loop_fail_step (oracle : AttemptOracle)
    (fuel attempt commits : ℕ)
    (hb : oracle.bist_success attempt = false)
    (hl : runner_detect_loop (oracle.response attempt) attempt = false)
    (hlt : attempt < 2) :
    execute_task_loop oracle (fuel + 1) attempt commits =
      execute_task_loop oracle fuel (attempt + 1) commits := by
  have h2 : ¬ attempt ≥ 2 := by omega
  conv_lhs => unfold execute_task_loop
  simp [hb, hl, h2]

theorem execute_task_loop_fail_stop (oracle : AttemptOracle)
    (fuel attempt commits : ℕ)
    (hb : oracle.bist_success attempt = false)
    (hl : runner_detect_loop (oracle.response attempt) attempt = false)
    (hge : 2 ≤ attempt) :
    execute_task_loop oracle (fuel + 1) attempt commits =
      { success := false, commits := commits, attempts_used := attempt + 1 } := by
  conv_lhs => unfold execute_task_loop
  simp [hb, hl, hge]

theorem execute_task_fail_bound (oracle : AttemptOracle) (max_iterations : ℕ)
    (hb : ∀ n, oracle.bist_success n = false)
    (hl : ∀ n, runner_detect_loop (oracle.response n) n = false)
    (hmax : 3 ≤ max_iterations) :
    execute_task_model oracle max_iterations =
      { success := false, commits := 0, attempts_used := 3 } := by
  obtain ⟨k, rfl⟩ : ∃ k, max_iterations = k + 3 := ⟨max_iterations - 3, by omega⟩
  show execute_task_loop oracle ((k + 2) + 1) 0 0 =
      { success := false, commits := 0, attempts_used := 3 }
  rw [execute_task_loop_fail_step oracle (k + 2) 0 0 (hb 0) (hl 0) (by omega)]
  show execute_task_loop oracle ((k + 1) + 1) 1 0 = _
  rw [execute_task_loop_fail_step oracle (k + 1) 1 0 (hb 1) (hl 1) (by omega)]
  show execute_task_loop oracle (k + 1) 2 0 = _
  rw [execute_task_loop_fail_stop oracle k 2 0 (hb 2) (hl 2) (by omega)]

/-- C6 witness: the bound applied to the always-failing oracle with the
default `max_iterations` of 25. -/
theorem execute_task_fail_bound_witness :
    ((∀ n, failingOracle.bist_success n = false) ∧
     (∀ n, runner_detect_loop (failingOracle.response n) n = false) ∧
     3 ≤ 25) ∧
    execute_task_model failingOracle 25 =
      { success := false, commits := 0, attempts_used := 3 } :=
  have hb : ∀ n, failingOracle.bist_success n = false := fun _ => rfl
  have hl : ∀ n, runner_detect_loop (failingOracle.response n) n = false := by
    intro n
    show runner_detect_loop ("print".toList) n = false
    unfold runner_detect_loop
    split
    · rfl
    · decide
  ⟨⟨hb, hl, by norm_num⟩, execute_task_fail_bound failingOracle 25 hb hl (by norm_num)⟩

/-- C7 counterexample: in the `src/worker.py` copy of the Isolation Client, a
commit that falls back to the subprocess path and fails there raises to the
caller instead of returning normally. -/
theorem worker_commit_raises :
    worker_commit envAllFail = CallResult.raised := rfl

/-- C7 amended: in the `src/hybridconductor/mcp/client.py` client, `commit`
always returns normally — subprocess failures on the fallback path are logged
and swallowed — while `create_branch` and `switch_branch` subprocess failures
are raised to the caller as fatal (in both copies); the legacy `src/worker.py`
copy re-raises commit subprocess failures as well. -/
theorem commit_error_contract (enabled : Bool) (env : McpEnv)
    (hn : env.networkOk = false) :
    client_commit enabled env = CallResult.returned ∧
    (env.checkoutNewResult = .failed →
      client_create_branch enabled env = CallResult.raised ∧
      worker_create_branch env = CallResult.raised) ∧
    (env.checkoutResult = .failed →
      client_switch_branch enabled env = CallResult.raised ∧
      worker_switch_branch env = CallResult.raised) ∧
    ((env.addResult = .failed ∨ env.commitResult = .failed) →
      worker_commit env = CallResult.raised) := by
  refine ⟨?_, fun hc => ?_, fun hc => ?_, fun hw => ?_⟩
  · unfold client_commit client_commit_subprocess
    cases enabled <;> cases henv : env.addResult <;> cases env.commitResult <;>
      simp [hn]
  · constructor
    · unfold client_create_branch create_branch_subprocess
      cases enabled <;> simp [hn, hc]
    · unfold worker_create_branch create_branch_subprocess
      simp [hn, hc]
  · constructor
    · unfold client_switch_branch switch_branch_subprocess
      cases enabled <;> simp [hn, hc]
    · unfold worker_switch_branch switch_branch_subprocess
      simp [hn, hc]
  · unfold worker_commit worker_commit_subprocess
    rcases hw with hw | hw
    · simp [hn, hw]
    · cases ha : env.addResult <;> simp [hn, hw, ha]

/-- C7 witness: the amended contract on the all-failing environment. -/
theorem commit_error_contract_witness :
    envAllFail.networkOk = false ∧
    (client_commit true envAllFail = CallResult.returned ∧
    (envAllFail.checkoutNewResult = .failed →
      client_create_branch true envAllFail = CallResult.raised ∧
      worker_create_branch envAllFail = CallResult.raised) ∧
    (envAllFail.checkoutResult = .failed →
      client_switch_branch true envAllFail = CallResult.raised ∧
      worker_switch_branch envAllFail = CallResult.raised) ∧
    ((envAllFail.addResult = .failed ∨ envAllFail.commitResult = .failed) →
      worker_commit envAllFail = CallResult.raised)) :=
  ⟨rfl, commit_error_contract true envAllFail rfl⟩

/-- C9: the persisted session record round-trips losslessly through pause and
resume — the restored orchestrator carries the same state, complexity mode,
counters and digest history, and re-serializing yields the identical
guardian snapshot (elapsed-time basis included). -/
theorem pause_resume_roundtrip (o : OrchestratorState) (now now' : ℚ)
    (ts ts' : List Char) :
    ∃ o', Orchestrator.resume o (Orchestrator.pause o now ts) now' = some o' ∧
      o'.current_state = o.current_state ∧
      o'.complexity_mode = o.complexity_mode ∧
      o'.loop_guardian.iteration_count = o.loop_guardian.iteration_count ∧
      o'.loop_guardian.retry_count = o.loop_guardian.retry_count ∧
      o'.loop_guardian.hash_history = o.loop_guardian.hash_history ∧
      (Orchestrator.pause o' now' ts').current_state =
        (Orchestrator.pause o now ts).current_state ∧
      (Orchestrator.pause o' now' ts').complexity_mode =
        (Orchestrator.pause o now ts).complexity_mode ∧
      (Orchestrator.pause o' now' ts').loop_guardian =
        (Orchestrator.pause o now ts).loop_guardian := by
  have hstate : State.ofValue o.current_state.value = some o.current_state := by
    cases o.current_state <;> rfl
  have hmode : set_complexity_mode o.complexity_mode.value = o.complexity_mode := by
    cases o.complexity_mode <;> rfl
  refine ⟨{ current_state := o.current_state,
            complexity_mode := o.complexity_mode,
            loop_guardian :=
              o.loop_guardian.from_dict (o.loop_guardian.to_dict now) now' },
    ?_, rfl, rfl, rfl, rfl, rfl, rfl, rfl, ?_⟩
  · show Orchestrator.resume o
        ⟨o.current_state.value, o.complexity_mode.value,
          o.loop_guardian.to_dict now, ts⟩ now' = _
    unfold Orchestrator.resume
    simp only
    rw [hstate]
    simp [hmode]
  · show (LoopGuardian.from_dict o.loop_guardian
        (o.loop_guardian.to_dict now) now').to_dict now' =
      o.loop_guardian.to_dict now
    unfold LoopGuardian.to_dict LoopGuardian.from_dict
    have harith : now' - (now' - (now - o.loop_guardian.start_time)) =
        now - o.loop_guardian.start_time := by ring
    simp [harith]

/-! ### Scanner lemmas

Facts about `runLen`, `lastConsumed`, and the `gsub` scanner needed to walk a
substitution pass across an assembled text segment by segment. -/

theorem runLen_nil (p : Char → Bool) : runLen p [] = 0 := rfl

theorem runLen_cons_pos (p : Char → Bool) (c : Char) (l : List Char)
    (h : p c = true) : runLen p (c :: l) = runLen p l + 1 := by
  simp [runLen, h]

theorem runLen_cons_neg (p : Char → Bool) (c : Char) (l : List Char)
    (h : p c = false) : runLen p (c :: l) = 0 := by
  simp [runLen, h]

/-- A run never reaches a failing head of the appended tail. -/
theorem runLen_append_stop (p : Char → Bool) (v s : List Char)
    (hs : ∀ c, s.head? = some c → p c = false) :
    runLen p (v ++ s) = runLen p v := by
  induction v with
  | nil =>
    simp only [List.nil_append, runLen_nil]
    cases s with
    | nil => rfl
    | cons c s' => exact runLen_cons_neg p c s' (hs c rfl)
  | cons c v' ih =>
    by_cases hc : p c = true
    · rw [List.cons_append, runLen_cons_pos p c _ hc, runLen_cons_pos p c _ hc, ih]
    · rw [List.cons_append, runLen_cons_neg p c _ (by simpa using hc),
        runLen_cons_neg p c _ (by simpa using hc)]

theorem runLen_all (p : Char → Bool) (v : List Char) (h : v.all p = true) :
    runLen p v = v.length := by
  induction v with
  | nil => rfl
  | cons c v' ih =>
    simp only [List.all_cons, Bool.and_eq_true] at h
    rw [runLen_cons_pos p c v' h.1, ih h.2, List.length_cons]

theorem runLen_le_length (p : Char → Bool) (v : List Char) :
    runLen p v ≤ v.length := by
  induction v with
  | nil => exact le_refl 0
  | cons c v' ih =>
    by_cases hc : p c = true
    · rw [runLen_cons_pos p c v' hc]; simpa using ih
    · rw [runLen_cons_neg p c v' (by simpa using hc)]; simp

/-- Every character inside the run satisfies the class; used to read a run
bound off `runLen`. -/
theorem runLen_full_of_all (p : Char → Bool) (v : List Char)
    (h : runLen p v = v.length) : v.all p = true := by
  induction v with
  | nil => rfl
  | cons c v' ih =>
    by_cases hc : p c = true
    · rw [runLen_cons_pos p c v' hc] at h
      simp only [List.length_cons, Nat.add_right_cancel_iff] at h
      simp [hc, ih h]
    · rw [runLen_cons_neg p c v' (by simpa using hc)] at h
      simp at h

theorem lastConsumed_nil (prev : Option Char) : lastConsumed prev [] = prev := rfl

theorem lastConsumed_cons (prev : Option Char) (c : Char) (u : List Char) :
    lastConsumed prev (c :: u) = lastConsumed (some c) u := by
  unfold lastConsumed
  cases hu : (c :: u).getLast? with
  | none => simp at hu
  | some d =>
    cases u with
    | nil => simp_all [List.getLast?]
    | cons c' u' =>
      rw [List.getLast?_cons_cons] at hu
      rw [hu]

/-- The scanner ignores surplus fuel: any two sufficient fuels agree. -/
theorem gsubA_fuel_eq (m : Option Char → List Char → Option Nat)
    (r : List Char) :
    ∀ (f1 : ℕ) (f2 : ℕ) (prev : Option Char) (s : List Char),
      s.length ≤ f1 → s.length ≤ f2 →
      gsubA m r f1 prev s = gsubA m r f2 prev s := by
  intro f1
  induction f1 with
  | zero =>
    intro f2 prev s h1 _
    have : s = [] := List.length_eq_zero.mp (Nat.le_zero.mp h1)
    subst this
    cases f2 <;> rfl
  | succ f ih =>
    intro f2 prev s h1 h2
    cases s with
    | nil => cases f2 <;> rfl
    | cons c rest =>
      cases f2 with
      | zero => simp at h2
      | succ g =>
        show gsubA m r (f + 1) prev (c :: rest) = gsubA m r (g + 1) prev (c :: rest)
        unfold gsubA
        simp only [List.length_cons] at h1 h2
        cases hm : m prev (c :: rest) with
        | none =>
          simp only [hm]
          rw [ih g (some c) rest (by omega) (by omega)]
        | some n =>
          simp only [hm]
          by_cases hn : 1 ≤ n
          · rw [if_pos hn, if_pos hn,
              ih g (lastConsumed prev ((c :: rest).take n)) ((c :: rest).drop n)
                (by simp only [List.length_drop, List.length_cons]; omega)
                (by simp only [List.length_drop, List.length_cons]; omega)]
          · rw [if_neg hn, if_neg hn, ih g (some c) rest (by omega) (by omega)]

theorem gsub_eq_gsubF (m : Option Char → List Char → Option Nat)
    (r : List Char) (s : List Char) : gsub m r s = gsubF m r none s := rfl

theorem gsubF_nil (m : Option Char → List Char → Option Nat) (r : List Char)
    (prev : Option Char) : gsubF m r prev [] = [] := rfl

/-- One scanner step past a non-matching position. -/
theorem gsubF_step_none (m : Option Char → List Char → Option Nat)
    (r : List Char) (prev : Option Char) (c : Char) (rest : List Char)
    (hm : m prev (c :: rest) = none) :
    gsubF m r prev (c :: rest) = c :: gsubF m r (some c) rest := by
  show gsubA m r (rest.length + 1) prev (c :: rest) = _
  unfold gsubA
  simp only [hm]
  rfl

/-- One scanner step across a match of positive length. -/
theorem gsubF_step_some (m : Option Char → List Char → Option Nat)
    (r : List Char) (prev : Option Char) (c : Char) (rest : List Char) (n : ℕ)
    (hm : m prev (c :: rest) = some n) (h1 : 1 ≤ n) :
    gsubF m r prev (c :: rest) =
      r ++ gsubF m r (lastConsumed prev ((c :: rest).take n))
        ((c :: rest).drop n) := by
  show gsubA m r (rest.length + 1) prev (c :: rest) = _
  unfold gsubA
  simp only [hm, if_pos h1]
  congr 1
  exact gsubA_fuel_eq m r _ _ _ _
    (by simp only [List.length_drop, List.length_cons]; omega)
    (le_refl _)

theorem noMatchWithin_nil (m : Option Char → List Char → Option Nat)
    (prev : Option Char) (s : List Char) : NoMatchWithin m prev [] s :=
  trivial

theorem noMatchWithin_cons (m : Option Char → List Char → Option Nat)
    (prev : Option Char) (c : Char) (u s : List Char)
    (hc : m prev (c :: (u ++ s)) = none)
    (hrest : NoMatchWithin m (some c) u s) :
    NoMatchWithin m prev (c :: u) s :=
  ⟨hc, hrest⟩

/-- Copy a match-free prefix: the scanner emits `u` verbatim and carries on. -/
theorem gsubF_append_noMatch (m : Option Char → List Char → Option Nat)
    (r : List Char) :
    ∀ (u : List Char) (prev : Option Char) (s : List Char),
      NoMatchWithin m prev u s →
      gsubF m r prev (u ++ s) = u ++ gsubF m r (lastConsumed prev u) s := by
  intro u
  induction u with
  | nil => intro prev s _; rfl
  | cons c u' ih =>
    intro prev s hnm
    obtain ⟨hc, hrest⟩ := hnm
    rw [List.cons_append, gsubF_step_none m r prev c (u' ++ s) hc, ih (some c) s hrest,
      lastConsumed_cons]
    rfl

/-- Consume a full-token match: the scanner emits the replacement and carries
on after the token. -/
theorem gsubF_append_match (m : Option Char → List Char → Option Nat)
    (r : List Char) (t : List Char) (prev : Option Char) (s : List Char)
    (hne : t ≠ [])
    (hm : m prev (t ++ s) = some t.length) :
    gsubF m r prev (t ++ s) = r ++ gsubF m r (lastConsumed prev t) s := by
  cases t with
  | nil => exact absurd rfl hne
  | cons c t' =>
    rw [List.cons_append,
      gsubF_step_some m r prev c (t' ++ s) (c :: t').length
        (by rw [← List.cons_append]; exact hm) (by simp)]
    congr 2
    · rw [← List.cons_append, List.take_left]
    · rw [← List.cons_append, List.drop_left]

/-! ### Character-class facts -/

theorem uint32_le_toNat (a b : UInt32) : a ≤ b ↔ a.toNat ≤ b.toNat := Iff.rfl

theorem isAlpha_false_of_isDigit (c : Char) (h : c.isDigit = true) :
    c.isAlpha = false := by
  revert h
  unfold Char.isDigit Char.isAlpha Char.isUpper Char.isLower
  simp only [Bool.and_eq_true, Bool.or_eq_false_iff, Bool.and_eq_false_iff,
    decide_eq_true_eq, decide_eq_false_iff_not, ge_iff_le, uint32_le_toNat]
  intro h
  have h65 : (65 : UInt32).toNat = 65 := rfl
  have h90 : (90 : UInt32).toNat = 90 := rfl
  have h97 : (97 : UInt32).toNat = 97 := rfl
  have h122 : (122 : UInt32).toNat = 122 := rfl
  have h48 : (48 : UInt32).toNat = 48 := rfl
  have h57 : (57 : UInt32).toNat = 57 := rfl
  rw [h65, h90, h97, h122]
  rw [h48, h57] at h
  omega

theorem toLower_eq_self (c : Char) (h : c.isUpper = false) : c.toLower = c := by
  unfold Char.toLower
  rw [if_neg]
  revert h
  unfold Char.isUpper
  simp only [Bool.and_eq_false_iff, decide_eq_false_iff_not, ge_iff_le,
    uint32_le_toNat]
  intro h hc
  unfold Char.toNat at hc
  have h65 : (65 : UInt32).toNat = 65 := rfl
  have h90 : (90 : UInt32).toNat = 90 := rfl
  rw [h65, h90] at h
  omega

theorem isUpper_false_of_isAlpha_false (c : Char) (h : c.isAlpha = false) :
    c.isUpper = false := by
  revert h
  unfold Char.isAlpha
  simp only [Bool.or_eq_false_iff, and_imp]
  intro h _
  exact h

/-- Everything the inertness of a neutral character gives. -/
theorem neutralC_spec (c : Char) (h : neutralC c = true) :
    isWordC c = false ∧ isWsC c = false ∧ isHexC c = false ∧
    compC c = false ∧ winClassC c = false ∧ isoTailC c = false ∧
    c ≠ '/' ∧ c ≠ ':' ∧ c ≠ '=' ∧ c ≠ '-' ∧ c ≠ '.' ∧ c ≠ '\\' ∧
    c.isDigit = false ∧ c.isAlpha = false ∧ c.isAlphanum = false := by
  unfold neutralC at h
  simp only [Bool.and_eq_true, Bool.not_eq_true', beq_eq_false_iff_ne] at h
  obtain ⟨⟨⟨⟨⟨⟨⟨⟨⟨⟨⟨hw, hs⟩, hx⟩, hc⟩, hwin⟩, ht⟩, h1⟩, h2⟩, h3⟩, h4⟩, h5⟩, h6⟩ := h
  have halnum : c.isAlphanum = false := by
    revert hw
    unfold isWordC
    simp only [Bool.or_eq_false_iff, and_imp]
    intro h _
    exact h
  have hdig : c.isDigit = false := by
    revert halnum
    unfold Char.isAlphanum
    simp only [Bool.or_eq_false_iff, and_imp]
    intro _ h
    exact h
  have halpha : c.isAlpha = false := by
    revert halnum
    unfold Char.isAlphanum
    simp only [Bool.or_eq_false_iff, and_imp]
    intro h _
    exact h
  exact ⟨hw, hs, hx, hc, hwin, ht, h1, h2, h3, h4, h5, h6, hdig, halpha, halnum⟩

theorem neutralC_toLower_ne (c a : Char) (h : neutralC c = true)
    (ha : a.isAlpha = true) : c.toLower ≠ a := by
  obtain ⟨_, _, _, _, _, _, _, _, _, _, _, _, _, halpha, _⟩ := neutralC_spec c h
  rw [toLower_eq_self c (isUpper_false_of_isAlpha_false c halpha)]
  intro hca
  rw [hca] at halpha
  rw [halpha] at ha
  exact Bool.false_ne_true ha

theorem isDigit_toLower_ne (c a : Char) (h : c.isDigit = true)
    (ha : a.isAlpha = true) : c.toLower ≠ a := by
  have halpha := isAlpha_false_of_isDigit c h
  rw [toLower_eq_self c (isUpper_false_of_isAlpha_false c halpha)]
  intro hca
  rw [hca] at halpha
  rw [halpha] at ha
  exact Bool.false_ne_true ha

/-! ### Head-failure lemmas for the matchers -/

theorem matchLitCI_cons_false (a b : Char) (as bs : List Char)
    (h : a.toLower ≠ b.toLower) : matchLitCI (a :: as) (b :: bs) = false := by
  unfold matchLitCI
  have hb : (a.toLower == b.toLower) = false := beq_eq_false_iff_ne.mpr h
  rw [hb, Bool.false_and]

theorem matchLitCI_nil_false (a : Char) (as : List Char) :
    matchLitCI (a :: as) [] = false := rfl

theorem iterLit_head : ("iteration".toList) = 'i' :: "teration".toList := rfl

/-- Case-insensitive "iteration" never starts at a character that is not a
letter. -/
theorem matchLitCI_iteration_false (c : Char) (s : List Char)
    (h : c.isAlpha = false) : matchLitCI ("iteration".toList) (c :: s) = false := by
  rw [iterLit_head]
  apply matchLitCI_cons_false
  intro hlow
  have hcl : c.toLower = c := toLower_eq_self c (isUpper_false_of_isAlpha_false c h)
  rw [hcl] at hlow
  have hi : ('i' : Char).toLower = 'i' := rfl
  rw [hi] at hlow
  rw [← hlow] at h
  exact (by decide : ¬ ('i' : Char).isAlpha = false) h

theorem isoMatch_none_shape (l : List Char) (h : isoShape l = false) :
    isoMatch l = none := by
  unfold isoMatch
  rw [h]
  rfl

theorem isoMatch_none_head (c : Char) (s : List Char) (h : c.isDigit = false) :
    isoMatch (c :: s) = none := by
  apply isoMatch_none_shape
  unfold isoShape
  simp [h]

theorem unixTsMatch_none_short (prev : Option Char) (l : List Char)
    (h : runLen Char.isDigit l < 10) : unixTsMatch prev l = none := by
  unfold unixTsMatch
  split
  · rfl
  · rw [if_neg (by omega)]

theorem unixTsMatch_none_head (prev : Option Char) (c : Char) (s : List Char)
    (h : c.isDigit = false) : unixTsMatch prev (c :: s) = none := by
  apply unixTsMatch_none_short
  rw [runLen_cons_neg _ _ _ h]
  omega

theorem unixTsMatch_none_word (w : Char) (l : List Char)
    (h : isWordC w = true) : unixTsMatch (some w) l = none := by
  unfold unixTsMatch
  rw [if_pos (show wordBeforeB (some w) = true from h)]

theorem hexAddrMatch_none_head (c : Char) (s : List Char)
    (h : c ≠ '0') : hexAddrMatch (c :: s) = none := by
  unfold hexAddrMatch
  simp [h]

theorem hexAddrMatch_none_nox (c : Char) (s : List Char)
    (h : (c :: s).getD 1 ' ' ≠ 'x') : hexAddrMatch (c :: s) = none := by
  unfold hexAddrMatch
  rw [if_neg]
  simp only [Bool.and_eq_true, beq_iff_eq]
  intro ⟨_, hx⟩
  exact h hx

theorem iterMatch_none_lit (l : List Char)
    (h : matchLitCI ("iteration".toList) l = false) : iterMatch l = none := by
  unfold iterMatch
  rw [h]
  rfl

theorem winPathMatch_none_colon (l : List Char)
    (h : l.getD 1 ' ' ≠ ':') : winPathMatch l = none := by
  unfold winPathMatch
  rw [if_neg]
  simp only [Bool.and_eq_true, beq_iff_eq]
  intro ⟨⟨_, hx⟩, _⟩
  exact h hx

theorem posixMatchF_none_head (fuel : ℕ) (c : Char) (l : List Char)
    (h : c ≠ '/') : posixMatchF fuel (c :: l) = none := by
  unfold posixMatchF
  split
  · next heq =>
      rw [List.cons.injEq] at heq
      exact absurd heq.1 h
  · rfl

theorem posixMatch_none_head (c : Char) (l : List Char)
    (h : c ≠ '/') : posixMatch (c :: l) = none :=
  posixMatchF_none_head _ c l h

theorem memAddrMatch_none_head (prev : Option Char) (c : Char) (s : List Char)
    (h : c ≠ '0') : memAddrMatch prev (c :: s) = none := by
  unfold memAddrMatch
  by_cases hw : wordBeforeB prev = true
  · rw [if_pos hw]
  · rw [if_neg hw]
    split
    · next heq =>
        rw [List.cons.injEq] at heq
        exact absurd heq.1 h
    · rfl

theorem memAddrMatch_none_nox (prev : Option Char) (c : Char) (s : List Char)
    (h : (c :: s).getD 1 ' ' ≠ 'x') : memAddrMatch prev (c :: s) = none := by
  unfold memAddrMatch
  by_cases hw : wordBeforeB prev = true
  · rw [if_pos hw]
  · rw [if_neg hw]
    split
    · next heq =>
        cases s with
        | nil => simp at heq
        | cons d s' =>
          rw [List.cons.injEq, List.cons.injEq] at heq
          obtain ⟨_, hd, _⟩ := heq
          have hdx : (c :: d :: s').getD 1 ' ' = 'x' := by simp [hd]
          exact absurd hdx h
    · rfl

theorem pidMatch_none_head (c : Char) (s : List Char)
    (h : c ≠ 'p') : pidMatch (c :: s) = none := by
  unfold pidMatch
  split
  · next heq =>
      rw [List.cons.injEq] at heq
      exact absurd heq.1 h
  · rfl

theorem tidMatch_none_head (c : Char) (s : List Char)
    (h : c ≠ 't') : tidMatch (c :: s) = none := by
  unfold tidMatch
  split
  · next heq =>
      rw [List.cons.injEq] at heq
      exact absurd heq.1 h
  · rfl

theorem headNeutral_not (p : Char → Bool)
    (hp : ∀ c, neutralC c = true → p c = false) :
    ∀ (s : List Char), headNeutral s = true →
      ∀ c, s.head? = some c → p c = false := by
  intro s hs c hc
  cases s with
  | nil => simp at hc
  | cons d s' =>
    simp only [List.head?_cons, Option.some.injEq] at hc
    subst hc
    exact hp _ hs

theorem neutralC_not_digit (c : Char) (h : neutralC c = true) :
    c.isDigit = false := (neutralC_spec c h).2.2.2.2.2.2.2.2.2.2.2.2.1

theorem neutralC_not_alpha (c : Char) (h : neutralC c = true) :
    c.isAlpha = false := (neutralC_spec c h).2.2.2.2.2.2.2.2.2.2.2.2.2.1

theorem neutralC_not_word (c : Char) (h : neutralC c = true) :
    isWordC c = false := (neutralC_spec c h).1

theorem neutralC_not_ws (c : Char) (h : neutralC c = true) :
    isWsC c = false := (neutralC_spec c h).2.1

theorem neutralC_not_hex (c : Char) (h : neutralC c = true) :
    isHexC c = false := (neutralC_spec c h).2.2.1

theorem neutralC_not_comp (c : Char) (h : neutralC c = true) :
    compC c = false := (neutralC_spec c h).2.2.2.1

theorem neutralC_not_win (c : Char) (h : neutralC c = true) :
    winClassC c = false := (neutralC_spec c h).2.2.2.2.1

theorem neutralC_not_isoTail (c : Char) (h : neutralC c = true) :
    isoTailC c = false := (neutralC_spec c h).2.2.2.2.2.1

/-- Class-driven traversal: a matcher that fails on every character of a
class walks any string drawn from that class. -/
theorem noMatchWithin_of_class (m : Option Char → List Char → Option Nat)
    (ok : Char → Bool)
    (hm : ∀ prev c s2, ok c = true → m prev (c :: s2) = none) :
    ∀ (u : List Char) (prev : Option Char) (s : List Char),
      u.all ok = true → NoMatchWithin m prev u s := by
  intro u
  induction u with
  | nil => intro prev s _; trivial
  | cons c u' ih =>
    intro prev s hall
    simp only [List.all_cons, Bool.and_eq_true] at hall
    exact ⟨hm _ _ _ hall.1, ih _ _ hall.2⟩

/-- Pair-driven traversal for the Windows-path pattern: no colon anywhere. -/
theorem noMatchWithin_win_noColon :
    ∀ (u : List Char) (prev : Option Char) (s : List Char),
      (∀ c ∈ u, c ≠ ':') → headNeutral s = true →
      NoMatchWithin (noPrev winPathMatch) prev u s := by
  intro u
  induction u with
  | nil => intro prev s _ _; trivial
  | cons c u' ih =>
    intro prev s hu hs
    refine ⟨?_, ih (some c) s (fun d hd => hu d (List.mem_cons_of_mem c hd)) hs⟩
    show winPathMatch (c :: (u' ++ s)) = none
    apply winPathMatch_none_colon
    cases u' with
    | cons d u'' =>
      simp only [List.cons_append, List.getD_cons_succ, List.getD_cons_zero]
      exact hu d (by simp)
    | nil =>
      cases s with
      | nil => simp
      | cons e s' =>
        simp only [List.nil_append, List.getD_cons_succ, List.getD_cons_zero]
        exact (neutralC_spec e hs).2.2.2.2.2.2.2.1

/-- Pair-driven traversal for the hex-address pattern over x-free material. -/
theorem noMatchWithin_hex_noX :
    ∀ (u : List Char) (prev : Option Char) (s : List Char),
      (∀ c ∈ u, c ≠ 'x') → headNeutral s = true →
      NoMatchWithin (noPrev hexAddrMatch) prev u s := by
  intro u
  induction u with
  | nil => intro prev s _ _; trivial
  | cons c u' ih =>
    intro prev s hu hs
    refine ⟨?_, ih (some c) s (fun d hd => hu d (List.mem_cons_of_mem c hd)) hs⟩
    show hexAddrMatch (c :: (u' ++ s)) = none
    apply hexAddrMatch_none_nox
    cases u' with
    | cons d u'' =>
      simp only [List.cons_append, List.getD_cons_succ, List.getD_cons_zero]
      exact hu d (by simp)
    | nil =>
      cases s with
      | nil => simp
      | cons e s' =>
        simp only [List.nil_append, List.getD_cons_succ, List.getD_cons_zero]
        intro he
        have := neutralC_not_word e hs
        rw [he] at this
        simp [isWordC] at this

/-- Pair-driven traversal for the memory-address pattern over x-free
material. -/
theorem noMatchWithin_mem_noX :
    ∀ (u : List Char) (prev : Option Char) (s : List Char),
      (∀ c ∈ u, c ≠ 'x') → headNeutral s = true →
      NoMatchWithin memAddrMatch prev u s := by
  intro u
  induction u with
  | nil => intro prev s _ _; trivial
  | cons c u' ih =>
    intro prev s hu hs
    refine ⟨?_, ih (some c) s (fun d hd => hu d (List.mem_cons_of_mem c hd)) hs⟩
    apply memAddrMatch_none_nox
    cases u' with
    | cons d u'' =>
      simp only [List.cons_append, List.getD_cons_succ, List.getD_cons_zero]
      exact hu d (by simp)
    | nil =>
      cases s with
      | nil => simp
      | cons e s' =>
        simp only [List.nil_append, List.getD_cons_succ, List.getD_cons_zero]
        intro he
        have := neutralC_not_word e hs
        rw [he] at this
        simp [isWordC] at this

theorem tidMatch_none_pos (l : List Char)
    (h : l.getD 0 ' ' ≠ 't' ∨ l.getD 1 ' ' ≠ 'i' ∨ l.getD 2 ' ' ≠ 'd' ∨
      l.getD 3 ' ' ≠ '=') : tidMatch l = none := by
  unfold tidMatch
  split
  · rcases h with h | h | h | h <;> simp at h
  · rfl

theorem pidMatch_none_pos (l : List Char)
    (h : l.getD 0 ' ' ≠ 'p' ∨ l.getD 1 ' ' ≠ 'i' ∨ l.getD 2 ' ' ≠ 'd' ∨
      l.getD 3 ' ' ≠ '=') : pidMatch l = none := by
  unfold pidMatch
  split
  · rcases h with h | h | h | h <;> simp at h
  · rfl

/-- The parts of an ISO-shape check needed to refute one from a dash-free
string. -/
theorem isoShape_spec (l : List Char) (h : isoShape l = true) :
    19 ≤ l.length ∧ (l.getD 1 ' ').isDigit = true ∧
      (l.getD 2 ' ').isDigit = true ∧ (l.getD 3 ' ').isDigit = true ∧
      l.getD 4 ' ' = '-' := by
  unfold isoShape at h
  simp only [Bool.and_eq_true] at h
  obtain ⟨⟨⟨⟨⟨⟨⟨⟨⟨⟨⟨⟨⟨⟨⟨⟨⟨⟨⟨hlen, _⟩, h1⟩, h2⟩, h3⟩, h4⟩, _⟩, _⟩, _⟩, _⟩,
    _⟩, _⟩, _⟩, _⟩, _⟩, _⟩, _⟩, _⟩, _⟩, _⟩ := h
  exact ⟨of_decide_eq_true hlen, h1, h2, h3, eq_of_beq h4⟩

/-- The ISO pattern cannot start anywhere in dash-free material followed by a
neutral character: its mandatory dash at offset 4 would have to be a
dash-free character or the neutral head. -/
theorem noMatchWithin_iso_noDash :
    ∀ (u : List Char) (prev : Option Char) (s : List Char),
      (∀ c ∈ u, c ≠ '-') → headNeutral s = true →
      NoMatchWithin (noPrev isoMatch) prev u s := by
  intro u
  induction u with
  | nil => intro _ _ _ _; trivial
  | cons c u' ih =>
    intro prev s hu hs
    refine ⟨?_, ih (some c) s (fun d hd => hu d (List.mem_cons_of_mem c hd)) hs⟩
    show isoMatch (c :: (u' ++ s)) = none
    apply isoMatch_none_shape
    by_contra hsh
    rw [Bool.not_eq_false] at hsh
    obtain ⟨hlen, h1, h2, h3, h4⟩ := isoShape_spec _ hsh
    have hl : c :: (u' ++ s) = (c :: u') ++ s := by simp
    rcases Nat.lt_or_ge 4 (u'.length + 1) with hk | hk
    · have hidx : (c :: (u' ++ s)).getD 4 ' ' = (c :: u').getD 4 ' ' := by
        rw [hl]
        exact List.getD_append _ _ _ _ (by simp only [List.length_cons]; omega)
      have hlt : 4 < (c :: u').length := by simp only [List.length_cons]; omega
      have hmem : (c :: u').getD 4 ' ' ∈ c :: u' := by
        rw [List.getD_eq_getElem _ _ hlt]
        exact List.getElem_mem hlt
      rw [hidx] at h4
      exact hu _ hmem h4
    · cases s with
      | nil =>
        rw [hl] at hlen
        simp only [List.append_nil, List.length_cons] at hlen
        omega
      | cons e s' =>
        have hne : neutralC e = true := hs
        have hidxe : ∀ j, j = u'.length + 1 →
            (c :: (u' ++ e :: s')).getD j ' ' = e := by
          intro j hj
          rw [show c :: (u' ++ e :: s') = (c :: u') ++ e :: s' by simp]
          rw [List.getD_append_right _ _ _ _ (by simp only [List.length_cons]; omega)]
          simp [hj]
        have hkcase : u'.length + 1 = 1 ∨ u'.length + 1 = 2 ∨
            u'.length + 1 = 3 ∨ u'.length + 1 = 4 := by omega
        rcases hkcase with hke | hke | hke | hke
        · rw [hidxe 1 hke.symm] at h1
          rw [neutralC_not_digit e hne] at h1
          exact Bool.false_ne_true h1
        · rw [hidxe 2 hke.symm] at h2
          rw [neutralC_not_digit e hne] at h2
          exact Bool.false_ne_true h2
        · rw [hidxe 3 hke.symm] at h3
          rw [neutralC_not_digit e hne] at h3
          exact Bool.false_ne_true h3
        · rw [hidxe 4 hke.symm] at h4
          exact (neutralC_spec e hne).2.2.2.2.2.2.2.2.2.1 h4

theorem hasLongDigitRun_false_head (c : Char) (rest : List Char)
    (h : hasLongDigitRun (c :: rest) = false) :
    runLen Char.isDigit (c :: rest) < 10 ∧ hasLongDigitRun rest = false := by
  unfold hasLongDigitRun at h
  simp only [Bool.or_eq_false_iff, decide_eq_false_iff_not] at h
  exact ⟨by omega, h.2⟩

theorem hasLongDigitRun_false_of_noDigit (u : List Char)
    (h : u.all (fun c => !c.isDigit) = true) : hasLongDigitRun u = false := by
  induction u with
  | nil => rfl
  | cons c u' ih =>
    rw [List.all_cons, Bool.and_eq_true] at h
    have hc : c.isDigit = false := by
      have := h.1
      simp only [Bool.not_eq_true'] at this
      exact this
    unfold hasLongDigitRun
    rw [runLen_cons_neg _ _ _ hc, ih h.2]
    decide

/-- The Unix-timestamp pattern cannot start anywhere in material whose digit
runs are all shorter than 10, followed by a neutral character. -/
theorem noMatchWithin_unix_shortRuns :
    ∀ (u : List Char) (prev : Option Char) (s : List Char),
      hasLongDigitRun u = false → headNeutral s = true →
      NoMatchWithin unixTsMatch prev u s := by
  intro u
  induction u with
  | nil => intro _ _ _ _; trivial
  | cons c u' ih =>
    intro prev s hu hs
    obtain ⟨hrun, hrest⟩ := hasLongDigitRun_false_head c u' hu
    refine ⟨?_, ih (some c) s hrest hs⟩
    apply unixTsMatch_none_short
    rw [show c :: (u' ++ s) = (c :: u') ++ s by simp]
    rw [runLen_append_stop _ _ _ (headNeutral_not _ neutralC_not_digit s hs)]
    exact hrun

theorem char_le_toNat (a b : Char) : a ≤ b ↔ a.toNat ≤ b.toNat := Iff.rfl

theorem isDigit_iff (c : Char) : c.isDigit = true ↔ 48 ≤ c.toNat ∧ c.toNat ≤ 57 := by
  unfold Char.isDigit
  rw [Bool.and_eq_true, decide_eq_true_eq, decide_eq_true_eq, ge_iff_le,
    uint32_le_toNat, uint32_le_toNat]
  exact Iff.rfl

theorem isUpper_iff (c : Char) : c.isUpper = true ↔ 65 ≤ c.toNat ∧ c.toNat ≤ 90 := by
  unfold Char.isUpper
  rw [Bool.and_eq_true, decide_eq_true_eq, decide_eq_true_eq, ge_iff_le,
    uint32_le_toNat, uint32_le_toNat]
  exact Iff.rfl

theorem isLower_iff (c : Char) : c.isLower = true ↔ 97 ≤ c.toNat ∧ c.toNat ≤ 122 := by
  unfold Char.isLower
  rw [Bool.and_eq_true, decide_eq_true_eq, decide_eq_true_eq, ge_iff_le,
    uint32_le_toNat, uint32_le_toNat]
  exact Iff.rfl

theorem isAlpha_iff (c : Char) : c.isAlpha = true ↔
    (65 ≤ c.toNat ∧ c.toNat ≤ 90) ∨ (97 ≤ c.toNat ∧ c.toNat ≤ 122) := by
  unfold Char.isAlpha
  rw [Bool.or_eq_true, isUpper_iff, isLower_iff]

theorem isWordC_of_isHexC (c : Char) (h : isHexC c = true) :
    isWordC c = true := by
  unfold isHexC at h
  unfold isWordC Char.isAlphanum
  simp only [Bool.or_eq_true, Bool.and_eq_true, decide_eq_true_eq] at h
  rcases h with (h | h) | h
  · rw [h]
    simp
  · obtain ⟨h1, h2⟩ := h
    rw [char_le_toNat] at h1 h2
    have ha : ('a' : Char).toNat = 97 := rfl
    have hf : ('f' : Char).toNat = 102 := rfl
    rw [ha] at h1
    rw [hf] at h2
    have : c.isAlpha = true := (isAlpha_iff c).mpr (Or.inr ⟨h1, by omega⟩)
    rw [this]
    simp
  · obtain ⟨h1, h2⟩ := h
    rw [char_le_toNat] at h1 h2
    have hA : ('A' : Char).toNat = 65 := rfl
    have hF : ('F' : Char).toNat = 70 := rfl
    rw [hA] at h1
    rw [hF] at h2
    have : c.isAlpha = true := (isAlpha_iff c).mpr (Or.inl ⟨h1, by omega⟩)
    rw [this]
    simp

/-- Decompose a hex-address token. -/
theorem hexShape_decomp (u : List Char) (h : catShape .hexAddr u = true) :
    ∃ rest, u = '0' :: 'x' :: rest ∧ rest.all isHexC = true ∧ 1 ≤ rest.length := by
  unfold catShape at h
  have h' := eq_of_beq h
  unfold hexAddrMatch at h'
  by_cases hc : (u.getD 0 ' ' == '0' && u.getD 1 ' ' == 'x') = true
  · rw [if_pos hc] at h'
    simp only [Bool.and_eq_true, beq_iff_eq] at hc
    by_cases hn : 1 ≤ runLen isHexC (u.drop 2)
    · rw [if_pos hn, Option.some.injEq] at h'
      cases u with
      | nil => exact absurd hc.1 (by decide)
      | cons a u1 =>
        cases u1 with
        | nil =>
            exact absurd ((show ([a] : List Char).getD 1 ' ' = ' ' from rfl) ▸ hc.2)
              (by decide)
        | cons b u2 =>
          simp only [List.getD_cons_zero, List.getD_cons_succ] at hc
          refine ⟨u2, by rw [hc.1, hc.2], ?_, ?_⟩
          · apply runLen_full_of_all
            simp only [List.length_cons, List.drop_succ_cons, List.drop_zero] at h' ⊢
            omega
          · simp only [List.length_cons, List.drop_succ_cons,
              List.drop_zero] at h' hn ⊢
            omega
    · rw [if_neg hn] at h'
      simp at h'
  · rw [if_neg hc] at h'
    simp at h' 

/-- Inside a hex token every digit run is preceded by a word character, so
the Unix-timestamp pattern cannot start there. -/
theorem noMatchWithin_unix_hexTail :
    ∀ (rest : List Char) (w : Char) (s : List Char), isWordC w = true →
      rest.all isHexC = true → NoMatchWithin unixTsMatch (some w) rest s := by
  intro rest
  induction rest with
  | nil => intro _ _ _ _; trivial
  | cons c rest' ih =>
    intro w s hw hall
    simp only [List.all_cons, Bool.and_eq_true] at hall
    exact ⟨unixTsMatch_none_word w _ hw,
      ih c s (isWordC_of_isHexC c hall.1) hall.2⟩

/-- The Unix-timestamp pattern cannot start inside a hex-address token. -/
theorem noMatchWithin_unix_hexToken (u : List Char) (prev : Option Char)
    (s : List Char) (h : catShape .hexAddr u = true) :
    NoMatchWithin unixTsMatch prev u s := by
  obtain ⟨rest, rfl, hall, _⟩ := hexShape_decomp u h
  refine ⟨?_, ?_, noMatchWithin_unix_hexTail rest 'x' s rfl hall⟩
  · apply unixTsMatch_none_short
    rw [show ('0' : Char) :: ('x' :: rest ++ s) = '0' :: 'x' :: (rest ++ s) by simp]
    rw [runLen_cons_pos _ _ _ (by decide), runLen_cons_neg _ _ _ (by decide)]
    omega
  · exact unixTsMatch_none_head _ _ _ (by decide)

/-! ### Case-insensitive literal crossing lemmas, for the iteration pattern -/

theorem ofNat_toNat_small (n : Nat) (h2 : n ≤ 122) : (Char.ofNat n).toNat = n := by
  unfold Char.ofNat
  rw [dif_pos]
  · rfl
  · unfold Nat.isValidChar
    left
    omega

theorem toLower_toNat_upper (c : Char) (h1 : 65 ≤ c.toNat) (h2 : c.toNat ≤ 90) :
    c.toLower.toNat = c.toNat + 32 := by
  unfold Char.toLower
  rw [if_pos ⟨h1, h2⟩]
  exact ofNat_toNat_small _ (by omega)

theorem toLower_range (x : Char) (hx : x.isAlpha = true) :
    97 ≤ x.toLower.toNat ∧ x.toLower.toNat ≤ 122 := by
  rcases (isAlpha_iff x).mp hx with ⟨h1, h2⟩ | ⟨h1, h2⟩
  · rw [toLower_toNat_upper x h1 h2]
    omega
  · have hu : x.isUpper = false := by
      rw [Bool.eq_false_iff]
      intro hu
      obtain ⟨g1, g2⟩ := (isUpper_iff x).mp hu
      omega
    rw [toLower_eq_self x hu]
    exact ⟨h1, h2⟩

theorem alpha_toLower_ne_neutral (x d : Char) (hx : x.isAlpha = true)
    (hd : neutralC d = true) : x.toLower ≠ d.toLower := by
  rw [toLower_eq_self d (isUpper_false_of_isAlpha_false d (neutralC_not_alpha d hd))]
  intro he
  obtain ⟨g1, g2⟩ := toLower_range x hx
  rw [he] at g1 g2
  have : d.isAlpha = true := (isAlpha_iff d).mpr (Or.inr ⟨g1, g2⟩)
  rw [neutralC_not_alpha d hd] at this
  exact Bool.false_ne_true this

theorem matchLitCI_short : ∀ (lit l : List Char), l.length < lit.length →
    matchLitCI lit l = false := by
  intro lit
  induction lit with
  | nil => intro l h; simp at h
  | cons x lt ih =>
    intro l h
    cases l with
    | nil => rfl
    | cons a l' =>
      show matchLitCI (x :: lt) (a :: l') = false
      unfold matchLitCI
      rw [ih l' (by simpa using h), Bool.and_false]

theorem matchLitCI_append_ge (lit : List Char) :
    ∀ (w s : List Char), lit.length ≤ w.length →
      matchLitCI lit (w ++ s) = matchLitCI lit w := by
  induction lit with
  | nil => intro w s _; rfl
  | cons x lt ih =>
    intro w s hlen
    cases w with
    | nil => simp at hlen
    | cons a w' =>
      show matchLitCI (x :: lt) (a :: (w' ++ s)) = matchLitCI (x :: lt) (a :: w')
      unfold matchLitCI
      rw [ih w' s (by simpa using hlen)]

theorem matchLitCI_append_cross :
    ∀ (lit : List Char), lit.all Char.isAlpha = true →
    ∀ (w : List Char) (d : Char) (s' : List Char), w.length < lit.length →
      neutralC d = true → matchLitCI lit (w ++ d :: s') = false := by
  intro lit
  induction lit with
  | nil => intro _ w d s' h _; simp at h
  | cons x lt ih =>
    intro hall w d s' hlen hd
    rw [List.all_cons, Bool.and_eq_true] at hall
    cases w with
    | nil =>
      show matchLitCI (x :: lt) (d :: s') = false
      exact matchLitCI_cons_false _ _ _ _ (alpha_toLower_ne_neutral x d hall.1 hd)
    | cons a w' =>
      show matchLitCI (x :: lt) (a :: (w' ++ d :: s')) = false
      unfold matchLitCI
      rw [ih hall.2 w' d s' (by simpa using hlen) hd, Bool.and_false]

theorem matchLitCI_second_false (a1 a2 b1 b2 : Char) (as bs : List Char)
    (h : a2.toLower ≠ b2.toLower) :
    matchLitCI (a1 :: a2 :: as) (b1 :: b2 :: bs) = false := by
  show matchLitCI (a1 :: a2 :: as) (b1 :: b2 :: bs) = false
  unfold matchLitCI
  rw [matchLitCI_cons_false a2 b2 as bs h, Bool.and_false]

theorem all_drop (p : Char → Bool) (u : List Char) (n : ℕ)
    (h : u.all p = true) : (u.drop n).all p = true := by
  rw [List.all_eq_true] at h ⊢
  exact fun x hx => h x (List.mem_of_mem_drop hx)

theorem runLen_zero_of_all_not (p : Char → Bool) (v : List Char)
    (h : v.all (fun c => !(p c)) = true) : runLen p v = 0 := by
  cases v with
  | nil => rfl
  | cons c v' =>
    rw [List.all_cons, Bool.and_eq_true] at h
    have hc : p c = false := by
      have := h.1
      simpa using this
    exact runLen_cons_neg _ _ _ hc

theorem iterMatch_none_nd (l : List Char)
    (h : runLen Char.isDigit ((l.drop 9).drop (runLen isWsC (l.drop 9))) = 0) :
    iterMatch l = none := by
  unfold iterMatch
  by_cases hlit : matchLitCI ("iteration".toList) l = true
  · rw [if_pos hlit]
    by_cases hws : 1 ≤ runLen isWsC (l.drop 9)
    · rw [if_pos hws, if_neg (by omega)]
    · rw [if_neg hws]
  · rw [if_neg hlit]

/-- The iteration pattern cannot start anywhere in digit-free material
followed by a neutral character: the mandatory digit run after the
whitespace would have to begin at a digit-free or neutral character. -/
theorem noMatchWithin_iter_noDigit :
    ∀ (u : List Char) (prev : Option Char) (s : List Char),
      u.all (fun c => !c.isDigit) = true → headNeutral s = true →
      NoMatchWithin (noPrev iterMatch) prev u s := by
  intro u
  induction u with
  | nil => intro _ _ _ _; trivial
  | cons c u' ih =>
    intro prev s hall hs
    have hall' := hall
    rw [List.all_cons, Bool.and_eq_true] at hall'
    refine ⟨?_, ih (some c) s hall'.2 hs⟩
    show iterMatch (c :: (u' ++ s)) = none
    by_cases hlen : (c :: u').length < 9
    · apply iterMatch_none_lit
      cases s with
      | nil =>
        rw [show c :: (u' ++ ([] : List Char)) = c :: u' by simp]
        exact matchLitCI_short _ _ (by simpa using hlen)
      | cons d s' =>
        rw [show c :: (u' ++ d :: s') = (c :: u') ++ d :: s' by simp]
        exact matchLitCI_append_cross _ (by decide) (c :: u') d s'
          (by simpa using hlen) hs
    · push_neg at hlen
      apply iterMatch_none_nd
      have h9 : (c :: (u' ++ s)).drop 9 = (c :: u').drop 9 ++ s := by
        rw [show c :: (u' ++ s) = (c :: u') ++ s by simp]
        exact List.drop_append_of_le_length hlen
      rw [h9]
      rw [runLen_append_stop _ _ _ (headNeutral_not _ neutralC_not_ws s hs)]
      rw [List.drop_append_of_le_length (runLen_le_length _ _)]
      rw [runLen_append_stop _ _ _ (headNeutral_not _ neutralC_not_digit s hs)]
      apply runLen_zero_of_all_not
      exact all_drop _ _ _ (all_drop _ _ _ hall)

/-- Decompose a pid token. -/
theorem pidShape_decomp (u : List Char) (h : catShape .pidKV u = true) :
    ∃ ds, u = 'p' :: 'i' :: 'd' :: '=' :: ds ∧ ds.all Char.isDigit = true ∧
      1 ≤ ds.length := by
  unfold catShape at h
  have h' := eq_of_beq h
  unfold pidMatch at h'
  split at h'
  · next rest =>
      refine ⟨rest, rfl, ?_, ?_⟩
      · by_cases hn : 1 ≤ runLen Char.isDigit rest
        · rw [if_pos hn, Option.some.injEq] at h'
          apply runLen_full_of_all
          simp only [List.length_cons] at h'
          omega
        · rw [if_neg hn] at h'
          simp at h'
      · by_cases hn : 1 ≤ runLen Char.isDigit rest
        · rw [if_pos hn, Option.some.injEq] at h'
          have := runLen_le_length Char.isDigit rest
          simp only [List.length_cons] at h'
          omega
        · rw [if_neg hn] at h'
          simp at h'
  · simp at h'

/-- Decompose a tid token. -/
theorem tidShape_decomp (u : List Char) (h : catShape .tidKV u = true) :
    ∃ ds, u = 't' :: 'i' :: 'd' :: '=' :: ds ∧ ds.all Char.isDigit = true ∧
      1 ≤ ds.length := by
  unfold catShape at h
  have h' := eq_of_beq h
  unfold tidMatch at h'
  split at h'
  · next rest =>
      refine ⟨rest, rfl, ?_, ?_⟩
      · by_cases hn : 1 ≤ runLen Char.isDigit rest
        · rw [if_pos hn, Option.some.injEq] at h'
          apply runLen_full_of_all
          simp only [List.length_cons] at h'
          omega
        · rw [if_neg hn] at h'
          simp at h'
      · by_cases hn : 1 ≤ runLen Char.isDigit rest
        · rw [if_pos hn, Option.some.injEq] at h'
          have := runLen_le_length Char.isDigit rest
          simp only [List.length_cons] at h'
          omega
        · rw [if_neg hn] at h'
          simp at h'
  · simp at h'

theorem iterMatch_none_digitHead (prev : Option Char) (c : Char)
    (s2 : List Char) (hc : c.isDigit = true) :
    (noPrev iterMatch) prev (c :: s2) = none :=
  iterMatch_none_lit _ (matchLitCI_iteration_false c _ (isAlpha_false_of_isDigit c hc))

theorem iterMatch_none_headLower (c : Char) (s2 : List Char)
    (h : 'i'.toLower ≠ c.toLower) : iterMatch (c :: s2) = none := by
  apply iterMatch_none_lit
  rw [iterLit_head]
  exact matchLitCI_cons_false _ _ _ _ h

/-- The iteration pattern cannot start inside a pid token. -/
theorem noMatchWithin_iter_pidToken (u : List Char) (prev : Option Char)
    (s : List Char) (h : catShape .pidKV u = true) :
    NoMatchWithin (noPrev iterMatch) prev u s := by
  obtain ⟨ds, rfl, hall, _⟩ := pidShape_decomp u h
  refine ⟨?_, ?_, ?_, ?_, noMatchWithin_of_class _ Char.isDigit
    iterMatch_none_digitHead ds _ s hall⟩
  · exact iterMatch_none_headLower _ _ (by decide)
  · exact iterMatch_none_lit _
      (matchLitCI_second_false 'i' 't' 'i' 'd' _ _ (by decide))
  · exact iterMatch_none_headLower _ _ (by decide)
  · exact iterMatch_none_headLower _ _ (by decide)

/-- The iteration pattern cannot start inside a tid token. -/
theorem noMatchWithin_iter_tidToken (u : List Char) (prev : Option Char)
    (s : List Char) (h : catShape .tidKV u = true) :
    NoMatchWithin (noPrev iterMatch) prev u s := by
  obtain ⟨ds, rfl, hall, _⟩ := tidShape_decomp u h
  refine ⟨?_, ?_, ?_, ?_, noMatchWithin_of_class _ Char.isDigit
    iterMatch_none_digitHead ds _ s hall⟩
  · exact iterMatch_none_headLower _ _ (by decide)
  · exact iterMatch_none_lit _
      (matchLitCI_second_false 'i' 't' 'i' 'd' _ _ (by decide))
  · exact iterMatch_none_headLower _ _ (by decide)
  · exact iterMatch_none_headLower _ _ (by decide)

/-! ### Token decompositions for the iteration and Windows-path categories -/

theorem runLen_take_all (p : Char → Bool) :
    ∀ v : List Char, (v.take (runLen p v)).all p = true := by
  intro v
  induction v with
  | nil => rfl
  | cons c v' ih =>
    by_cases hc : p c = true
    · rw [runLen_cons_pos _ _ _ hc, List.take_succ_cons, List.all_cons, hc,
        Bool.true_and]
      exact ih
    · rw [runLen_cons_neg _ _ _ (by simpa using hc)]
      rfl

theorem runLen_append_of_lt (p : Char → Bool) :
    ∀ (v s : List Char), runLen p v < v.length →
      runLen p (v ++ s) = runLen p v := by
  intro v
  induction v with
  | nil => intro s h; simp at h
  | cons c v' ih =>
    intro s h
    by_cases hc : p c = true
    · rw [runLen_cons_pos _ _ _ hc, List.length_cons] at h
      rw [List.cons_append, runLen_cons_pos _ _ _ hc, runLen_cons_pos _ _ _ hc,
        ih s (by omega)]
    · rw [List.cons_append, runLen_cons_neg _ _ _ (by simpa using hc),
        runLen_cons_neg _ _ _ (by simpa using hc)]

theorem matchLitCI_toLower_map : ∀ (lit w : List Char), matchLitCI lit w = true →
    (w.take lit.length).map Char.toLower = lit.map Char.toLower := by
  intro lit
  induction lit with
  | nil => intro w _; rfl
  | cons x lt ih =>
    intro w h
    cases w with
    | nil =>
      exact absurd h (by rw [show matchLitCI (x :: lt) [] = false from rfl]; decide)
    | cons a w' =>
      have h' : (x.toLower == a.toLower && matchLitCI lt w') = true := h
      rw [Bool.and_eq_true, beq_iff_eq] at h'
      simp only [List.length_cons, List.take_succ_cons, List.map_cons]
      rw [ih w' h'.2, h'.1]

/-- Decompose an iteration token: the nine literal characters, a nonempty
whitespace run, a nonempty digit run. -/
theorem iterShape_decomp (t : List Char) (h : catShape .iterPhrase t = true) :
    ∃ ws ds, t = t.take 9 ++ ws ++ ds ∧ (t.take 9).length = 9 ∧
      matchLitCI ("iteration".toList) t = true ∧
      ws.all isWsC = true ∧ 1 ≤ ws.length ∧
      ds.all Char.isDigit = true ∧ 1 ≤ ds.length := by
  unfold catShape at h
  have h' := eq_of_beq h
  unfold iterMatch at h'
  by_cases h1 : matchLitCI ("iteration".toList) t = true
  · rw [if_pos h1] at h'
    by_cases h2 : 1 ≤ runLen isWsC (t.drop 9)
    · rw [if_pos h2] at h'
      by_cases h3 : 1 ≤ runLen Char.isDigit
          ((t.drop 9).drop (runLen isWsC (t.drop 9)))
      · rw [if_pos h3, Option.some.injEq] at h'
        have hrl := runLen_le_length isWsC (t.drop 9)
        refine ⟨(t.drop 9).take (runLen isWsC (t.drop 9)),
          (t.drop 9).drop (runLen isWsC (t.drop 9)), ?_, ?_, h1, ?_, ?_, ?_, ?_⟩
        · rw [List.append_assoc, List.take_append_drop, List.take_append_drop]
        · rw [List.length_take, List.length_drop] at *
          omega
        · exact runLen_take_all isWsC (t.drop 9)
        · rw [List.length_take, List.length_drop] at *
          omega
        · apply runLen_full_of_all
          rw [List.length_drop, List.length_drop]
          omega
        · rw [List.length_drop, List.length_drop]
          omega
      · rw [if_neg h3] at h'
        simp at h'
    · rw [if_neg h2] at h'
      simp at h'
  · rw [if_neg h1] at h'
    simp at h'

/-- Every character of the literal part of an iteration token lower-cases into
the word `iteration`. -/
theorem iterLit_chars (t : List Char)
    (h : matchLitCI ("iteration".toList) t = true) :
    ∀ c ∈ t.take 9, c.toLower ∈ "iteration".toList := by
  have hm := matchLitCI_toLower_map ("iteration".toList) t h
  rw [show ("iteration".toList).length = 9 from rfl] at hm
  intro c hc
  have h2 : c.toLower ∈ (t.take 9).map Char.toLower :=
    List.mem_map.mpr ⟨c, hc, rfl⟩
  rw [hm] at h2
  have h3 : ("iteration".toList).map Char.toLower = "iteration".toList := by decide
  rw [h3] at h2
  exact h2

/-- No character of an iteration token is a dash, an `x` or a colon. -/
theorem iterToken_chars (t : List Char) (h : catShape .iterPhrase t = true) :
    ∀ c ∈ t, c ≠ '-' ∧ c ≠ 'x' ∧ c ≠ ':' := by
  obtain ⟨ws, ds, heq, _, hlit, hws, _, hds, _⟩ := iterShape_decomp t h
  intro c hc
  rw [heq, List.append_assoc, List.mem_append, List.mem_append] at hc
  rcases hc with hc | hc | hc
  · have hlow := iterLit_chars t hlit c hc
    refine ⟨?_, ?_, ?_⟩ <;> intro he <;> rw [he] at hlow <;>
      exact absurd hlow (by decide)
  · have hcw : isWsC c = true := by
      rw [List.all_eq_true] at hws
      exact hws c hc
    refine ⟨?_, ?_, ?_⟩ <;> intro he <;> rw [he] at hcw <;>
      exact absurd hcw (by decide)
  · have hcd : c.isDigit = true := by
      rw [List.all_eq_true] at hds
      exact hds c hc
    refine ⟨?_, ?_, ?_⟩ <;> intro he <;> rw [he] at hcd <;>
      exact absurd hcd (by decide)

/-- Decompose a Windows-path token. -/
theorem winShape_decomp (t : List Char) (h : catShape .winPath t = true) :
    ∃ a run, t = a :: ':' :: '\\' :: run ∧ a.isAlpha = true ∧
      run.all winClassC = true ∧ 1 ≤ run.length := by
  unfold catShape at h
  have h' := eq_of_beq h
  unfold winPathMatch at h'
  by_cases hc : ((t.getD 0 ' ').isAlpha && t.getD 1 ' ' == ':' &&
      t.getD 2 ' ' == '\\') = true
  · rw [if_pos hc] at h'
    by_cases hn : 1 ≤ runLen winClassC (t.drop 3)
    · rw [if_pos hn, Option.some.injEq] at h'
      simp only [Bool.and_eq_true, beq_iff_eq] at hc
      obtain ⟨⟨ha, hc1⟩, hc2⟩ := hc
      cases t with
      | nil => exact absurd ha (by decide)
      | cons a t1 =>
        cases t1 with
        | nil =>
          exact absurd ((show ([a] : List Char).getD 1 ' ' = ' ' from rfl) ▸ hc1)
            (by decide)
        | cons b t2 =>
          cases t2 with
          | nil =>
            exact absurd
              ((show ([a, b] : List Char).getD 2 ' ' = ' ' from rfl) ▸ hc2)
              (by decide)
          | cons d t3 =>
            simp only [List.getD_cons_zero, List.getD_cons_succ] at ha hc1 hc2
            refine ⟨a, t3, by rw [hc1, hc2], ha, ?_, ?_⟩
            · apply runLen_full_of_all
              simp only [List.length_cons, List.drop_succ_cons,
                List.drop_zero] at h' ⊢
              omega
            · simp only [List.length_cons, List.drop_succ_cons,
                List.drop_zero] at h' hn ⊢
              omega
    · rw [if_neg hn] at h'
      simp at h'
  · rw [if_neg hc] at h'
    simp at h'

/-- The tid pattern cannot start inside the placeholder the iteration pass
inserts: its two `t`s are followed by `e` and by `io`, never by `id=`. -/
theorem noMatchWithin_tid_iterPlaceholder (prev : Option Char) (s : List Char) :
    NoMatchWithin (noPrev tidMatch) prev ("iteration [N]".toList) s := by
  show NoMatchWithin (noPrev tidMatch) prev
    ('i' :: 't' :: 'e' :: 'r' :: 'a' :: 't' :: 'i' :: 'o' :: 'n' :: ' ' :: '[' ::
      'N' :: ']' :: []) s
  refine ⟨?_, ?_, ?_, ?_, ?_, ?_, ?_, ?_, ?_, ?_, ?_, ?_, ?_, trivial⟩
  · exact tidMatch_none_head _ _ (by decide)
  · exact tidMatch_none_pos _ (Or.inr (Or.inl (by
      simp only [List.cons_append, List.getD_cons_succ, List.getD_cons_zero]
      decide)))
  · exact tidMatch_none_head _ _ (by decide)
  · exact tidMatch_none_head _ _ (by decide)
  · exact tidMatch_none_head _ _ (by decide)
  · exact tidMatch_none_pos _ (Or.inr (Or.inr (Or.inl (by
      simp only [List.cons_append, List.getD_cons_succ, List.getD_cons_zero]
      decide))))
  · exact tidMatch_none_head _ _ (by decide)
  · exact tidMatch_none_head _ _ (by decide)
  · exact tidMatch_none_head _ _ (by decide)
  · exact tidMatch_none_head _ _ (by decide)
  · exact tidMatch_none_head _ _ (by decide)
  · exact tidMatch_none_head _ _ (by decide)
  · exact tidMatch_none_head _ _ (by decide)

/-! ### POSIX-path group parsing lemmas -/

theorem posixGroups_step (fuel : ℕ) (s : List Char) :
    posixGroups (fuel + 1) s =
      if 1 ≤ runLen compC s && ((s.drop (runLen compC s)).head? == some '/') then
        runLen compC s :: posixGroups fuel (s.drop (runLen compC s + 1))
      else [] := rfl

theorem posixGroups_nil : ∀ f, posixGroups f [] = [] := by
  intro f
  cases f with
  | zero => rfl
  | succ g => rfl

/-- The group parser ignores surplus fuel. -/
theorem posixGroups_fuel : ∀ (f1 f2 : ℕ) (s : List Char),
    s.length ≤ f1 → s.length ≤ f2 → posixGroups f1 s = posixGroups f2 s := by
  intro f1
  induction f1 with
  | zero =>
    intro f2 s h1 _
    have hs : s = [] := List.length_eq_zero.mp (Nat.le_zero.mp h1)
    subst hs
    rw [posixGroups_nil, posixGroups_nil]
  | succ f ih =>
    intro f2 s h1 h2
    cases f2 with
    | zero =>
      have hs : s = [] := List.length_eq_zero.mp (Nat.le_zero.mp h2)
      subst hs
      rw [posixGroups_nil, posixGroups_nil]
    | succ g =>
      rw [posixGroups_step, posixGroups_step]
      by_cases hcond : (1 ≤ runLen compC s &&
          ((s.drop (runLen compC s)).head? == some '/')) = true
      · rw [if_pos hcond, if_pos hcond]
        congr 1
        apply ih
        · rw [List.length_drop]
          omega
        · rw [List.length_drop]
          omega
      · rw [if_neg hcond, if_neg hcond]

/-- The groups never consume more than the whole string. -/
theorem posixGroups_sum_le : ∀ (f : ℕ) (v : List Char),
    ((posixGroups f v).map (· + 1)).sum ≤ v.length := by
  intro f
  induction f with
  | zero =>
    intro v
    show (([] : List ℕ).map (· + 1)).sum ≤ v.length
    simp
  | succ g ih =>
    intro v
    rw [posixGroups_step]
    by_cases hcond : (1 ≤ runLen compC v &&
        ((v.drop (runLen compC v)).head? == some '/')) = true
    · rw [if_pos hcond]
      simp only [List.map_cons, List.sum_cons]
      have htail := ih (v.drop (runLen compC v + 1))
      rw [List.length_drop] at htail
      rw [Bool.and_eq_true] at hcond
      have hsl : (v.drop (runLen compC v)).head? = some '/' := eq_of_beq hcond.2
      have hlt : runLen compC v < v.length := by
        by_contra hge
        push_neg at hge
        rw [List.drop_eq_nil_of_le hge] at hsl
        simp at hsl
      omega
    · rw [if_neg hcond]
      simp

/-- Appending neutrally-headed material after a string whose group parse ends
in a single component run reaching the end does not change the parse. -/
theorem posixGroups_append : ∀ (g : ℕ) (f1 : ℕ) (v s : List Char),
    v.length ≤ g → (v ++ s).length ≤ f1 → headNeutral s = true →
    runLen compC (v.drop (((posixGroups g v).map (· + 1)).sum)) =
      v.length - ((posixGroups g v).map (· + 1)).sum →
    posixGroups f1 (v ++ s) = posixGroups g v := by
  intro g
  induction g with
  | zero =>
    intro f1 v s h2 h1 hs _
    have hv : v = [] := List.length_eq_zero.mp (Nat.le_zero.mp h2)
    subst hv
    rw [posixGroups_nil, List.nil_append]
    cases f1 with
    | zero => rfl
    | succ g1 =>
      have hncond : ¬ ((1 ≤ runLen compC s &&
          ((s.drop (runLen compC s)).head? == some '/')) = true) := by
        rw [Bool.and_eq_true]
        intro hpair
        have hge := of_decide_eq_true hpair.1
        cases s with
        | nil => simp [runLen_nil] at hge
        | cons e s' =>
          rw [runLen_cons_neg _ _ _ (neutralC_not_comp e hs)] at hge
          omega
      rw [posixGroups_step, if_neg hncond]
  | succ g ih =>
    intro f1 v s h2 h1 hs hrem
    rw [posixGroups_step] at hrem ⊢
    by_cases hcond : (1 ≤ runLen compC v &&
        ((v.drop (runLen compC v)).head? == some '/')) = true
    · rw [if_pos hcond] at hrem ⊢
      rw [Bool.and_eq_true] at hcond
      have hr1 : 1 ≤ runLen compC v := of_decide_eq_true hcond.1
      have hslash : (v.drop (runLen compC v)).head? = some '/' := eq_of_beq hcond.2
      have hlt : runLen compC v < v.length := by
        by_contra hge2
        push_neg at hge2
        rw [List.drop_eq_nil_of_le hge2] at hslash
        simp at hslash
      cases f1 with
      | zero =>
        exfalso
        rw [List.length_append] at h1
        omega
      | succ g1 =>
        have hrl : runLen compC (v ++ s) = runLen compC v :=
          runLen_append_of_lt _ v s hlt
        have hdropvs : (v ++ s).drop (runLen compC v) =
            v.drop (runLen compC v) ++ s :=
          List.drop_append_of_le_length (le_of_lt hlt)
        have hcond' : (1 ≤ runLen compC (v ++ s) &&
            (((v ++ s).drop (runLen compC (v ++ s))).head? == some '/')) = true := by
          rw [hrl, hdropvs, Bool.and_eq_true]
          refine ⟨hcond.1, ?_⟩
          cases hvd : v.drop (runLen compC v) with
          | nil =>
            rw [hvd] at hslash
            simp at hslash
          | cons x xs =>
            rw [hvd] at hslash
            simp only [List.head?_cons, Option.some.injEq] at hslash
            subst hslash
            simp
        rw [posixGroups_step, if_pos hcond', hrl]
        congr 1
        have hdrop1 : (v ++ s).drop (runLen compC v + 1) =
            v.drop (runLen compC v + 1) ++ s :=
          List.drop_append_of_le_length (by omega)
        rw [hdrop1]
        apply ih
        · rw [List.length_drop]
          omega
        · rw [List.length_append, List.length_drop]
          rw [List.length_append] at h1
          omega
        · exact hs
        · simp only [List.map_cons, List.sum_cons] at hrem
          rw [List.length_drop]
          have hdd : (v.drop (runLen compC v + 1)).drop
              (((posixGroups g (v.drop (runLen compC v + 1))).map (· + 1)).sum) =
              v.drop (runLen compC v + 1 +
                ((posixGroups g (v.drop (runLen compC v + 1))).map (· + 1)).sum) := by
            rw [List.drop_drop]
          rw [hdd]
          omega
    · rw [if_neg hcond] at hrem ⊢
      simp only [List.map_nil, List.sum_nil, List.drop_zero, Nat.sub_zero] at hrem
      cases f1 with
      | zero => rfl
      | succ g1 =>
        have hncond : ¬ ((1 ≤ runLen compC (v ++ s) &&
            (((v ++ s).drop (runLen compC (v ++ s))).head? == some '/')) = true) := by
          rw [Bool.and_eq_true]
          intro hpair
          have hrvs : runLen compC (v ++ s) = v.length := by
            rw [runLen_append_stop _ _ _
              (headNeutral_not _ neutralC_not_comp s hs), hrem]
          have hsl := eq_of_beq hpair.2
          rw [hrvs, List.drop_left] at hsl
          cases s with
          | nil => simp at hsl
          | cons e s' =>
            simp only [List.head?_cons, Option.some.injEq] at hsl
            exact (neutralC_spec e hs).2.2.2.2.2.2.1 hsl
        rw [posixGroups_step, if_neg hncond]

theorem all_or_left (p q : Char → Bool) (l : List Char) (h : l.all p = true) :
    l.all (fun c => p c || q c) = true := by
  rw [List.all_eq_true] at h ⊢
  intro c hc
  simp [h c hc]

/-- When the group parse ends in one component run reaching the end, the whole
string is component characters and slashes. -/
theorem posixConsumed_chars : ∀ (f : ℕ) (v : List Char),
    v.length ≤ f →
    runLen compC (v.drop (((posixGroups f v).map (· + 1)).sum)) =
      v.length - ((posixGroups f v).map (· + 1)).sum →
    v.all (fun c => compC c || c == '/') = true := by
  intro f
  induction f with
  | zero =>
    intro v h _
    have hv : v = [] := List.length_eq_zero.mp (Nat.le_zero.mp h)
    subst hv
    rfl
  | succ g ih =>
    intro v hlen hrem
    rw [posixGroups_step] at hrem
    by_cases hcond : (1 ≤ runLen compC v &&
        ((v.drop (runLen compC v)).head? == some '/')) = true
    · rw [if_pos hcond] at hrem
      rw [Bool.and_eq_true] at hcond
      have hslash : (v.drop (runLen compC v)).head? = some '/' := eq_of_beq hcond.2
      have hlt : runLen compC v < v.length := by
        by_contra hge
        push_neg at hge
        rw [List.drop_eq_nil_of_le hge] at hslash
        simp at hslash
      have h1 : v.drop (runLen compC v) = '/' :: v.drop (runLen compC v + 1) := by
        cases hvd : v.drop (runLen compC v) with
        | nil =>
          rw [hvd] at hslash
          simp at hslash
        | cons x xs =>
          rw [hvd] at hslash
          simp only [List.head?_cons, Option.some.injEq] at hslash
          subst hslash
          congr 1
          have ht := List.tail_drop v (runLen compC v)
          rw [hvd] at ht
          simpa using ht
      have hsplit : v = v.take (runLen compC v) ++
          '/' :: v.drop (runLen compC v + 1) := by
        conv_lhs => rw [← List.take_append_drop (runLen compC v) v]
        rw [h1]
      rw [hsplit, List.all_append, List.all_cons, Bool.and_eq_true,
        Bool.and_eq_true]
      refine ⟨all_or_left _ _ _ (runLen_take_all compC v), by decide, ?_⟩
      apply ih
      · rw [List.length_drop]
        omega
      · simp only [List.map_cons, List.sum_cons] at hrem
        rw [List.length_drop]
        have hdd : (v.drop (runLen compC v + 1)).drop
            (((posixGroups g (v.drop (runLen compC v + 1))).map (· + 1)).sum) =
            v.drop (runLen compC v + 1 +
              ((posixGroups g (v.drop (runLen compC v + 1))).map (· + 1)).sum) := by
          rw [List.drop_drop]
        rw [hdd]
        omega
    · rw [if_neg hcond] at hrem
      simp only [List.map_nil, List.sum_nil, List.drop_zero, Nat.sub_zero] at hrem
      exact all_or_left _ _ _ (runLen_full_of_all _ _ hrem)

theorem posixMatchF_slash (fuel : ℕ) (rest : List Char) :
    posixMatchF fuel ('/' :: rest) =
      if 1 ≤ runLen compC (rest.drop (((posixGroups fuel rest).map (· + 1)).sum)) then
        if 1 ≤ (posixGroups fuel rest).length then
          some (1 + ((posixGroups fuel rest).map (· + 1)).sum +
            runLen compC (rest.drop (((posixGroups fuel rest).map (· + 1)).sum)))
        else none
      else if 2 ≤ (posixGroups fuel rest).length then
        some (((posixGroups fuel rest).map (· + 1)).sum)
      else none := rfl

/-- Decompose a POSIX-path token: a slash, at least one slash-terminated
group, and a final component covering the rest. -/
theorem posixShape_decomp (t : List Char) (h : catShape .posixPath t = true) :
    ∃ rest, t = '/' :: rest ∧
      1 ≤ (posixGroups rest.length rest).length ∧
      1 ≤ runLen compC
        (rest.drop (((posixGroups rest.length rest).map (· + 1)).sum)) ∧
      ((posixGroups rest.length rest).map (· + 1)).sum +
        runLen compC
          (rest.drop (((posixGroups rest.length rest).map (· + 1)).sum)) =
        rest.length := by
  unfold catShape at h
  have h' := eq_of_beq h
  unfold posixMatch at h'
  cases t with
  | nil => exact Option.noConfusion h'
  | cons c rest =>
    by_cases hc : c = '/'
    · subst hc
      simp only [List.length_cons] at h'
      rw [posixMatchF_slash] at h'
      rw [posixGroups_fuel (rest.length + 1) rest.length rest (by omega)
        (le_refl _)] at h'
      by_cases hfr : 1 ≤ runLen compC
          (rest.drop (((posixGroups rest.length rest).map (· + 1)).sum))
      · rw [if_pos hfr] at h'
        by_cases hg : 1 ≤ (posixGroups rest.length rest).length
        · rw [if_pos hg, Option.some.injEq] at h'
          exact ⟨rest, rfl, hg, hfr, by omega⟩
        · rw [if_neg hg] at h'
          exact Option.noConfusion h'
      · rw [if_neg hfr] at h'
        by_cases h2 : 2 ≤ (posixGroups rest.length rest).length
        · rw [if_pos h2, Option.some.injEq] at h'
          have := posixGroups_sum_le rest.length rest
          omega
        · rw [if_neg h2] at h'
          exact Option.noConfusion h'
    · rw [posixMatchF_none_head _ c rest hc] at h'
      exact Option.noConfusion h'

/-- Every character of a POSIX-path token is a component character or a
slash. -/
theorem posixToken_chars (t : List Char) (h : catShape .posixPath t = true) :
    ∀ c ∈ t, (compC c || c == '/') = true := by
  obtain ⟨rest, rfl, hg, hfr, hsum⟩ := posixShape_decomp t h
  intro c hc
  rcases List.mem_cons.mp hc with rfl | hc
  · decide
  · have hrem : runLen compC
        (rest.drop (((posixGroups rest.length rest).map (· + 1)).sum)) =
        rest.length - ((posixGroups rest.length rest).map (· + 1)).sum := by
      omega
    have hall := posixConsumed_chars rest.length rest (le_refl _) hrem
    rw [List.all_eq_true] at hall
    exact hall c hc

/-- No character of a POSIX-path token is a colon. -/
theorem posixToken_ne_colon (t : List Char) (h : catShape .posixPath t = true) :
    ∀ c ∈ t, c ≠ ':' := by
  intro c hc he
  have := posixToken_chars t h c hc
  rw [he] at this
  exact absurd this (by decide)

/-! ### Character facts for pid, tid and hex tokens -/

theorem neutral_ne_of_class (p : Char → Bool) (c d : Char) (hc : p c = false)
    (hd : p d = true) : c ≠ d := by
  intro he
  rw [he, hd] at hc
  exact absurd hc (by decide)

theorem isWsC_false_of_isDigit (c : Char) (h : c.isDigit = true) :
    isWsC c = false := by
  rw [Bool.eq_false_iff]
  intro hw
  unfold isWsC at hw
  simp only [Bool.or_eq_true, beq_iff_eq] at hw
  rcases hw with ((((hw | hw) | hw) | hw) | hw) | hw <;> rw [hw] at h <;>
    exact absurd h (by decide)

theorem winPathMatch_none_alpha (c : Char) (s : List Char)
    (h : c.isAlpha = false) : winPathMatch (c :: s) = none := by
  unfold winPathMatch
  rw [if_neg]
  simp only [Bool.and_eq_true]
  intro ⟨⟨ha, _⟩, _⟩
  rw [List.getD_cons_zero, h] at ha
  exact Bool.false_ne_true ha

/-- No token of any category is empty. -/
theorem catShape_ne_nil (cat : VolCat) (t : List Char)
    (h : catShape cat t = true) : t ≠ [] := by
  intro he
  subst he
  revert h
  cases cat <;> decide

/-- No character of a pid token is a dash, an `x`, a colon or a slash. -/
theorem pidToken_chars (t : List Char) (h : catShape .pidKV t = true) :
    ∀ c ∈ t, c ≠ '-' ∧ c ≠ 'x' ∧ c ≠ ':' ∧ c ≠ '/' := by
  obtain ⟨ds, rfl, hall, _⟩ := pidShape_decomp t h
  intro c hc
  simp only [List.mem_cons] at hc
  rcases hc with rfl | rfl | rfl | rfl | hc
  · exact ⟨by decide, by decide, by decide, by decide⟩
  · exact ⟨by decide, by decide, by decide, by decide⟩
  · exact ⟨by decide, by decide, by decide, by decide⟩
  · exact ⟨by decide, by decide, by decide, by decide⟩
  · have hcd : c.isDigit = true := List.all_eq_true.mp hall c hc
    exact ⟨neutral_ne_of_class (fun d => !d.isDigit) c '-' (by simp [hcd]) (by decide),
      neutral_ne_of_class (fun d => !d.isDigit) c 'x' (by simp [hcd]) (by decide),
      neutral_ne_of_class (fun d => !d.isDigit) c ':' (by simp [hcd]) (by decide),
      neutral_ne_of_class (fun d => !d.isDigit) c '/' (by simp [hcd]) (by decide)⟩

/-- No character of a tid token is a dash, an `x`, a colon, a slash or a
`p`. -/
theorem tidToken_chars (t : List Char) (h : catShape .tidKV t = true) :
    ∀ c ∈ t, c ≠ '-' ∧ c ≠ 'x' ∧ c ≠ ':' ∧ c ≠ '/' ∧ c ≠ 'p' := by
  obtain ⟨ds, rfl, hall, _⟩ := tidShape_decomp t h
  intro c hc
  simp only [List.mem_cons] at hc
  rcases hc with rfl | rfl | rfl | rfl | hc
  · exact ⟨by decide, by decide, by decide, by decide, by decide⟩
  · exact ⟨by decide, by decide, by decide, by decide, by decide⟩
  · exact ⟨by decide, by decide, by decide, by decide, by decide⟩
  · exact ⟨by decide, by decide, by decide, by decide, by decide⟩
  · have hcd : c.isDigit = true := List.all_eq_true.mp hall c hc
    exact ⟨neutral_ne_of_class (fun d => !d.isDigit) c '-' (by simp [hcd]) (by decide),
      neutral_ne_of_class (fun d => !d.isDigit) c 'x' (by simp [hcd]) (by decide),
      neutral_ne_of_class (fun d => !d.isDigit) c ':' (by simp [hcd]) (by decide),
      neutral_ne_of_class (fun d => !d.isDigit) c '/' (by simp [hcd]) (by decide),
      neutral_ne_of_class (fun d => !d.isDigit) c 'p' (by simp [hcd]) (by decide)⟩

/-- No character of a hex-address token is a dash. -/
theorem hexToken_ne_dash (t : List Char) (h : catShape .hexAddr t = true) :
    ∀ c ∈ t, c ≠ '-' := by
  obtain ⟨rest, rfl, hall, _⟩ := hexShape_decomp t h
  intro c hc
  simp only [List.mem_cons] at hc
  rcases hc with rfl | rfl | hc
  · decide
  · decide
  · have hch : isHexC c = true := List.all_eq_true.mp hall c hc
    intro he
    rw [he] at hch
    exact absurd hch (by decide)

/-! ### Replacement lemmas: at its own pass each matcher consumes exactly
its token -/

theorem isoShape_append (t s : List Char) (h : isoShape t = true) :
    isoShape (t ++ s) = true := by
  unfold isoShape at h ⊢
  simp only [Bool.and_eq_true] at h ⊢
  obtain ⟨⟨⟨⟨⟨⟨⟨⟨⟨⟨⟨⟨⟨⟨⟨⟨⟨⟨⟨hlen, g0⟩, g1⟩, g2⟩, g3⟩, g4⟩, g5⟩, g6⟩, g7⟩, g8⟩,
    g9⟩, g10⟩, g11⟩, g12⟩, g13⟩, g14⟩, g15⟩, g16⟩, g17⟩, g18⟩ := h
  have hL : 19 ≤ t.length := of_decide_eq_true hlen
  have hg : ∀ n, n < 19 → (t ++ s).getD n ' ' = t.getD n ' ' := fun n hn =>
    List.getD_append _ _ _ _ (by omega)
  refine ⟨⟨⟨⟨⟨⟨⟨⟨⟨⟨⟨⟨⟨⟨⟨⟨⟨⟨⟨?_, ?_⟩, ?_⟩, ?_⟩, ?_⟩, ?_⟩, ?_⟩, ?_⟩, ?_⟩, ?_⟩,
    ?_⟩, ?_⟩, ?_⟩, ?_⟩, ?_⟩, ?_⟩, ?_⟩, ?_⟩, ?_⟩, ?_⟩
  · exact decide_eq_true (by rw [List.length_append]; omega)
  · rw [hg 0 (by omega)]; exact g0
  · rw [hg 1 (by omega)]; exact g1
  · rw [hg 2 (by omega)]; exact g2
  · rw [hg 3 (by omega)]; exact g3
  · rw [hg 4 (by omega)]; exact g4
  · rw [hg 5 (by omega)]; exact g5
  · rw [hg 6 (by omega)]; exact g6
  · rw [hg 7 (by omega)]; exact g7
  · rw [hg 8 (by omega)]; exact g8
  · rw [hg 9 (by omega)]; exact g9
  · rw [hg 10 (by omega)]; exact g10
  · rw [hg 11 (by omega)]; exact g11
  · rw [hg 12 (by omega)]; exact g12
  · rw [hg 13 (by omega)]; exact g13
  · rw [hg 14 (by omega)]; exact g14
  · rw [hg 15 (by omega)]; exact g15
  · rw [hg 16 (by omega)]; exact g16
  · rw [hg 17 (by omega)]; exact g17
  · rw [hg 18 (by omega)]; exact g18

theorem isoRepl (t s : List Char) (h : catShape .isoTimestamp t = true)
    (hs : headNeutral s = true) : isoMatch (t ++ s) = some t.length := by
  unfold catShape at h
  have h' := eq_of_beq h
  unfold isoMatch at h'
  by_cases hsh : isoShape t = true
  · rw [if_pos hsh, Option.some.injEq] at h'
    have hlen : 19 ≤ t.length := by
      have := runLen_le_length isoTailC (t.drop 19)
      omega
    unfold isoMatch
    rw [if_pos (isoShape_append t s hsh), Option.some.injEq]
    rw [List.drop_append_of_le_length hlen,
      runLen_append_stop _ _ _ (headNeutral_not _ neutralC_not_isoTail s hs)]
    exact h'
  · rw [if_neg hsh] at h'
    exact Option.noConfusion h'

theorem unixRepl (t s : List Char) (prev : Option Char)
    (h : catShape .decimalRun t = true) (hprev : prevNeutral prev = true)
    (hs : headNeutral s = true) : unixTsMatch prev (t ++ s) = some t.length := by
  unfold catShape at h
  rw [Bool.and_eq_true] at h
  have hall := h.1
  have hlen : 10 ≤ t.length := of_decide_eq_true h.2
  have hwb : wordBeforeB prev = false := by
    cases prev with
    | none => rfl
    | some c => exact neutralC_not_word c hprev
  have hrun : runLen Char.isDigit (t ++ s) = t.length := by
    rw [runLen_append_stop _ _ _ (headNeutral_not _ neutralC_not_digit s hs),
      runLen_all _ _ hall]
  unfold unixTsMatch
  rw [if_neg (show ¬ wordBeforeB prev = true by rw [hwb]; exact Bool.false_ne_true)]
  simp only [hrun]
  rw [if_pos hlen, List.drop_left]
  cases s with
  | nil => rfl
  | cons e s' =>
    simp only [List.head?_cons]
    rw [if_neg (show ¬ isWordC e = true by
      rw [neutralC_not_word e hs]; exact Bool.false_ne_true)]

theorem hexRepl (t s : List Char) (h : catShape .hexAddr t = true)
    (hs : headNeutral s = true) : hexAddrMatch (t ++ s) = some t.length := by
  obtain ⟨rest, rfl, hall, h1⟩ := hexShape_decomp t h
  have hr : runLen isHexC (rest ++ s) = rest.length := by
    rw [runLen_append_stop _ _ _ (headNeutral_not _ neutralC_not_hex s hs),
      runLen_all _ _ hall]
  unfold hexAddrMatch
  simp only [List.cons_append, List.getD_cons_zero, List.getD_cons_succ,
    List.drop_succ_cons, List.drop_zero, hr]
  rw [if_pos (by decide), if_pos (by omega), Option.some.injEq]
  simp only [List.length_cons]

theorem iterRepl (t s : List Char) (h : catShape .iterPhrase t = true)
    (hs : headNeutral s = true) : iterMatch (t ++ s) = some t.length := by
  obtain ⟨ws, ds, heq, hlen9, hlit, hws, hws1, hds, hds1⟩ := iterShape_decomp t h
  have hlenT : 9 ≤ t.length := by
    rw [heq, List.length_append, List.length_append, hlen9]
    omega
  have hdsne : ds ≠ [] := by
    intro he
    rw [he] at hds1
    simp at hds1
  have hds_head : ∀ c, (ds ++ s).head? = some c → isWsC c = false := by
    cases ds with
    | nil => exact absurd rfl hdsne
    | cons d ds' =>
      intro c hc
      simp only [List.cons_append, List.head?_cons, Option.some.injEq] at hc
      rw [← hc]
      exact isWsC_false_of_isDigit d (List.all_eq_true.mp hds d (by simp))
  have hdrop9 : (t ++ s).drop 9 = ws ++ (ds ++ s) := by
    have h9 : t ++ s = t.take 9 ++ (ws ++ (ds ++ s)) := by
      conv_lhs => rw [heq]
      rw [List.append_assoc, List.append_assoc]
    rw [h9, List.drop_append_of_le_length (by rw [hlen9]),
      List.drop_eq_nil_of_le (by rw [hlen9]), List.nil_append]
  have hrws : runLen isWsC (ws ++ (ds ++ s)) = ws.length :=
    by rw [runLen_append_stop _ _ _ hds_head, runLen_all _ _ hws]
  have hrds : runLen Char.isDigit (ds ++ s) = ds.length := by
    rw [runLen_append_stop _ _ _ (headNeutral_not _ neutralC_not_digit s hs),
      runLen_all _ _ hds]
  unfold iterMatch
  rw [matchLitCI_append_ge _ t s
    (by rw [show ("iteration".toList).length = 9 from rfl]; exact hlenT)]
  rw [if_pos hlit, hdrop9, hrws]
  rw [if_pos (by omega), List.drop_left, hrds, if_pos (by omega),
    Option.some.injEq]
  rw [heq, List.length_append, List.length_append, hlen9]

theorem winRepl (t s : List Char) (h : catShape .winPath t = true)
    (hs : headNeutral s = true) : winPathMatch (t ++ s) = some t.length := by
  obtain ⟨a, run, rfl, ha, hall, h1⟩ := winShape_decomp t h
  have hr : runLen winClassC (run ++ s) = run.length := by
    rw [runLen_append_stop _ _ _ (headNeutral_not _ neutralC_not_win s hs),
      runLen_all _ _ hall]
  unfold winPathMatch
  simp only [List.cons_append, List.getD_cons_zero, List.getD_cons_succ,
    List.drop_succ_cons, List.drop_zero, hr]
  rw [if_pos (by rw [ha]; decide), if_pos (by omega), Option.some.injEq]
  simp only [List.length_cons]

theorem posixRepl (t s : List Char) (h : catShape .posixPath t = true)
    (hs : headNeutral s = true) : posixMatch (t ++ s) = some t.length := by
  obtain ⟨rest, rfl, hg, hfr, hsum⟩ := posixShape_decomp t h
  have hrem : runLen compC
      (rest.drop (((posixGroups rest.length rest).map (· + 1)).sum)) =
      rest.length - ((posixGroups rest.length rest).map (· + 1)).sum := by
    omega
  show posixMatch ('/' :: (rest ++ s)) = _
  unfold posixMatch
  simp only [List.length_cons]
  rw [posixMatchF_slash]
  have hgr : posixGroups ((rest ++ s).length + 1) (rest ++ s) =
      posixGroups rest.length rest :=
    posixGroups_append rest.length _ rest s (le_refl _) (by omega) hs hrem
  rw [hgr]
  have hS := posixGroups_sum_le rest.length rest
  rw [List.drop_append_of_le_length hS,
    runLen_append_stop _ _ _ (headNeutral_not _ neutralC_not_comp s hs)]
  rw [if_pos hfr, if_pos hg, Option.some.injEq]
  omega

theorem pidRepl (t s : List Char) (h : catShape .pidKV t = true)
    (hs : headNeutral s = true) : pidMatch (t ++ s) = some t.length := by
  obtain ⟨ds, rfl, hall, h1⟩ := pidShape_decomp t h
  have hstep : pidMatch ('p' :: 'i' :: 'd' :: '=' :: (ds ++ s)) =
      if 1 ≤ runLen Char.isDigit (ds ++ s) then
        some (runLen Char.isDigit (ds ++ s) + 4)
      else none := rfl
  show pidMatch ('p' :: 'i' :: 'd' :: '=' :: (ds ++ s)) = _
  rw [hstep, runLen_append_stop _ _ _ (headNeutral_not _ neutralC_not_digit s hs),
    runLen_all _ _ hall, if_pos h1, Option.some.injEq]
  simp only [List.length_cons]

theorem tidRepl (t s : List Char) (h : catShape .tidKV t = true)
    (hs : headNeutral s = true) : tidMatch (t ++ s) = some t.length := by
  obtain ⟨ds, rfl, hall, h1⟩ := tidShape_decomp t h
  have hstep : tidMatch ('t' :: 'i' :: 'd' :: '=' :: (ds ++ s)) =
      if 1 ≤ runLen Char.isDigit (ds ++ s) then
        some (runLen Char.isDigit (ds ++ s) + 4)
      else none := rfl
  show tidMatch ('t' :: 'i' :: 'd' :: '=' :: (ds ++ s)) = _
  rw [hstep, runLen_append_stop _ _ _ (headNeutral_not _ neutralC_not_digit s hs),
    runLen_all _ _ hall, if_pos h1, Option.some.injEq]
  simp only [List.length_cons]

theorem passOf_inj (c1 c2 : VolCat) (h : passOf c1 = passOf c2) : c1 = c2 := by
  revert h
  cases c1 <;> cases c2 <;> decide

theorem passOf_pos (c : VolCat) : 1 ≤ passOf c := by
  cases c <;> decide

theorem passOf_ne_seven (c : VolCat) : passOf c ≠ 7 := by
  cases c <;> decide

theorem passOf_le_nine (c : VolCat) : passOf c ≤ 9 := by
  cases c <;> decide

theorem interleave_cons (side : VolHole → List Char) (l0 : List Char)
    (h : VolHole) (l : List Char) (rest : List (VolHole × List Char)) :
    interleave side l0 ((h, l) :: rest) =
      l0 ++ (side h ++ interleave side l rest) :=
  List.append_assoc l0 (side h) (interleave side l rest)

theorem headNeutral_interleave (side : VolHole → List Char) (l : List Char)
    (rest : List (VolHole × List Char)) (hl : l.all neutralC = true)
    (hsep : (rest.isEmpty || !l.isEmpty) = true) :
    headNeutral (interleave side l rest) = true := by
  cases l with
  | nil =>
    cases rest with
    | nil => rfl
    | cons e r => simp at hsep
  | cons c l' =>
    rw [List.all_cons, Bool.and_eq_true] at hl
    cases rest with
    | nil => exact hl.1
    | cons e r =>
      obtain ⟨h, l2⟩ := e
      rw [interleave_cons]
      exact hl.1

theorem prevNeutral_lastConsumed (prev : Option Char) (l : List Char)
    (hp : prevNeutral prev = true) (hl : l.all neutralC = true) :
    prevNeutral (lastConsumed prev l) = true := by
  induction l generalizing prev with
  | nil => exact hp
  | cons c u ih =>
    rw [List.all_cons, Bool.and_eq_true] at hl
    rw [lastConsumed_cons]
    exact ih (some c) hl.1 hl.2

theorem prevNeutral_lastConsumed_ne (prev : Option Char) (l : List Char)
    (hl : l.all neutralC = true) (hne : l ≠ []) :
    prevNeutral (lastConsumed prev l) = true := by
  cases l with
  | nil => exact absurd rfl hne
  | cons c u =>
    rw [List.all_cons, Bool.and_eq_true] at hl
    rw [lastConsumed_cons]
    exact prevNeutral_lastConsumed (some c) u hl.1 hl.2

/-- One substitution pass maps the `k`-stage text to the `k + 1`-stage text:
neutral literals are copied, placeholders and foreign tokens are walked
without a match, and every token of the pass's own category becomes its
placeholder. -/
theorem engineStep (m : Option Char → List Char → Option Nat) (k : ℕ)
    (catK : VolCat) (hk : passOf catK = k)
    (hLit : ∀ prev c s2, neutralC c = true → m prev (c :: s2) = none)
    (hTok : ∀ (cat : VolCat) (t : List Char), catShape cat t = true →
      tokenSafe cat t = true → cat ≠ catK →
      ∀ prev s, headNeutral s = true →
        NoMatchWithin m prev (if passOf cat < k then placeholder cat else t) s)
    (hRepl : ∀ (t : List Char) (prev : Option Char) (s : List Char),
      catShape catK t = true → tokenSafe catK t = true →
      prevNeutral prev = true → headNeutral s = true →
      m prev (t ++ s) = some t.length)
    (side : VolHole → List Char) :
    ∀ (es : List (VolHole × List Char)) (l0 : List Char) (prev : Option Char),
      (∀ e ∈ es, catShape e.1.cat (side e.1) = true ∧
        tokenSafe e.1.cat (side e.1) = true) →
      litsOk es = true → l0.all neutralC = true →
      (es.isEmpty || prevNeutral (lastConsumed prev l0)) = true →
      gsubF m (placeholder catK) prev (interleave (pickA k side) l0 es) =
        interleave (pickA (k + 1) side) l0 es := by
  intro es
  induction es with
  | nil =>
    intro l0 prev _ _ hl0 _
    show gsubF m (placeholder catK) prev l0 = l0
    have hnm := gsubF_append_noMatch m (placeholder catK) l0 prev []
      (noMatchWithin_of_class m neutralC hLit l0 prev [] hl0)
    rw [List.append_nil] at hnm
    rw [hnm, gsubF_nil, List.append_nil]
  | cons e rest ih =>
    obtain ⟨h, l⟩ := e
    intro l0 prev hSide hlits hl0 hprev
    have hsh := hSide (h, l) (by simp)
    have hlits' : (l.all neutralC && (rest.isEmpty || !l.isEmpty) &&
        litsOk rest) = true := hlits
    rw [Bool.and_eq_true, Bool.and_eq_true] at hlits'
    obtain ⟨⟨hlneut, hsep⟩, hlrest⟩ := hlits'
    have hprev1 : prevNeutral (lastConsumed prev l0) = true := by
      simpa using hprev
    have hhn : headNeutral (interleave (pickA k side) l rest) = true :=
      headNeutral_interleave _ l rest hlneut hsep
    have hSideR : ∀ e ∈ rest, catShape e.1.cat (side e.1) = true ∧
        tokenSafe e.1.cat (side e.1) = true :=
      fun e he => hSide e (List.mem_cons_of_mem _ he)
    have hprevR : ∀ p : Option Char, (rest.isEmpty ||
        prevNeutral (lastConsumed p l)) = true := by
      intro p
      cases rest with
      | nil => rfl
      | cons e2 r2 =>
        rw [show ((e2 :: r2 : List (VolHole × List Char)).isEmpty) = false
          from rfl, Bool.false_or] at hsep ⊢
        have hlne : l ≠ [] := by
          intro he
          rw [he] at hsep
          exact absurd hsep (by decide)
        exact prevNeutral_lastConsumed_ne p l hlneut hlne
    rw [interleave_cons, interleave_cons]
    rw [gsubF_append_noMatch m _ l0 prev _
      (noMatchWithin_of_class m neutralC hLit l0 prev _ hl0)]
    congr 1
    by_cases hcat : h.cat = catK
    · have hpick : pickA k side h = side h := by
        unfold pickA
        rw [if_neg (by rw [hcat, hk]; omega)]
      have hpick' : pickA (k + 1) side h = placeholder catK := by
        unfold pickA
        rw [if_pos (by rw [hcat, hk]; omega), hcat]
      rw [hpick, hpick']
      have hne := catShape_ne_nil h.cat (side h) hsh.1
      have hmatch : m (lastConsumed prev l0)
          (side h ++ interleave (pickA k side) l rest) =
          some (side h).length := by
        apply hRepl
        · rw [← hcat]
          exact hsh.1
        · rw [← hcat]
          exact hsh.2
        · exact hprev1
        · exact hhn
      rw [gsubF_append_match m _ _ _ _ hne hmatch]
      congr 1
      exact ih l (lastConsumed (lastConsumed prev l0) (side h)) hSideR hlrest
        hlneut (hprevR _)
    · have hpick : pickA (k + 1) side h = pickA k side h := by
        unfold pickA
        by_cases hlt : passOf h.cat < k
        · rw [if_pos (by omega), if_pos hlt]
        · have hnek : passOf h.cat ≠ k := fun heq =>
            hcat (passOf_inj _ _ (by rw [heq, hk]))
          rw [if_neg (by omega), if_neg hlt]
      have hnmT : NoMatchWithin m (lastConsumed prev l0) (pickA k side h)
          (interleave (pickA k side) l rest) :=
        hTok h.cat (side h) hsh.1 hsh.2 hcat (lastConsumed prev l0) _ hhn
      rw [gsubF_append_noMatch m _ _ _ _ hnmT, hpick]
      congr 1
      exact ih l (lastConsumed (lastConsumed prev l0) (pickA k side h)) hSideR
        hlrest hlneut (hprevR _)

/-- A pass whose pattern matches nowhere in the assembled text copies it
verbatim (the memory-address pass). -/
theorem engineSkip (m : Option Char → List Char → Option Nat) (r : List Char)
    (k : ℕ)
    (hLit : ∀ prev c s2, neutralC c = true → m prev (c :: s2) = none)
    (hTok : ∀ (cat : VolCat) (t : List Char), catShape cat t = true →
      tokenSafe cat t = true →
      ∀ prev s, headNeutral s = true →
        NoMatchWithin m prev (if passOf cat < k then placeholder cat else t) s)
    (side : VolHole → List Char) :
    ∀ (es : List (VolHole × List Char)) (l0 : List Char) (prev : Option Char),
      (∀ e ∈ es, catShape e.1.cat (side e.1) = true ∧
        tokenSafe e.1.cat (side e.1) = true) →
      litsOk es = true → l0.all neutralC = true →
      gsubF m r prev (interleave (pickA k side) l0 es) =
        interleave (pickA k side) l0 es := by
  intro es
  induction es with
  | nil =>
    intro l0 prev _ _ hl0
    show gsubF m r prev l0 = l0
    have hnm := gsubF_append_noMatch m r l0 prev []
      (noMatchWithin_of_class m neutralC hLit l0 prev [] hl0)
    rw [List.append_nil] at hnm
    rw [hnm, gsubF_nil, List.append_nil]
  | cons e rest ih =>
    obtain ⟨h, l⟩ := e
    intro l0 prev hSide hlits hl0
    have hsh := hSide (h, l) (by simp)
    have hlits' : (l.all neutralC && (rest.isEmpty || !l.isEmpty) &&
        litsOk rest) = true := hlits
    rw [Bool.and_eq_true, Bool.and_eq_true] at hlits'
    obtain ⟨⟨hlneut, hsep⟩, hlrest⟩ := hlits'
    have hhn : headNeutral (interleave (pickA k side) l rest) = true :=
      headNeutral_interleave _ l rest hlneut hsep
    rw [interleave_cons]
    rw [gsubF_append_noMatch m _ l0 prev _
      (noMatchWithin_of_class m neutralC hLit l0 prev _ hl0)]
    congr 1
    have hnmT : NoMatchWithin m (lastConsumed prev l0) (pickA k side h)
        (interleave (pickA k side) l rest) :=
      hTok h.cat (side h) hsh.1 hsh.2 (lastConsumed prev l0) _ hhn
    rw [gsubF_append_noMatch m _ _ _ _ hnmT]
    congr 1
    exact ih l (lastConsumed (lastConsumed prev l0) (pickA k side h))
      (fun e he => hSide e (List.mem_cons_of_mem _ he)) hlrest hlneut

/-! ### The nine passes of the normalizer over an assembled text -/

theorem passIso (side : VolHole → List Char)
    (es : List (VolHole × List Char)) (l0 : List Char) (prev : Option Char)
    (hSide : ∀ e ∈ es, catShape e.1.cat (side e.1) = true ∧
      tokenSafe e.1.cat (side e.1) = true)
    (hlits : litsOk es = true) (hl0 : l0.all neutralC = true)
    (hprev : (es.isEmpty || prevNeutral (lastConsumed prev l0)) = true) :
    gsubF (noPrev isoMatch) ("[TIMESTAMP]".toList) prev
      (interleave (pickA 1 side) l0 es) = interleave (pickA 2 side) l0 es := by
  have hLit : ∀ (p : Option Char) (c : Char) (s2 : List Char),
      neutralC c = true → noPrev isoMatch p (c :: s2) = none :=
    fun _ c s2 hc => isoMatch_none_head c _ (neutralC_not_digit c hc)
  have hTok : ∀ (cat : VolCat) (t : List Char), catShape cat t = true →
      tokenSafe cat t = true → cat ≠ .isoTimestamp →
      ∀ p s, headNeutral s = true →
        NoMatchWithin (noPrev isoMatch) p
          (if passOf cat < 1 then placeholder cat else t) s := by
    intro cat t hshape hsafe hne p s hs
    cases cat with
    | isoTimestamp => exact absurd rfl hne
    | decimalRun =>
      rw [if_neg (by decide)]
      refine noMatchWithin_iso_noDash t p s ?_ hs
      intro c hc he
      unfold catShape at hshape
      rw [Bool.and_eq_true] at hshape
      have hcd := List.all_eq_true.mp hshape.1 c hc
      rw [he] at hcd
      exact absurd hcd (by decide)
    | hexAddr =>
      rw [if_neg (by decide)]
      exact noMatchWithin_iso_noDash t p s (hexToken_ne_dash t hshape) hs
    | iterPhrase =>
      rw [if_neg (by decide)]
      exact noMatchWithin_iso_noDash t p s
        (fun c hc => (iterToken_chars t hshape c hc).1) hs
    | winPath =>
      rw [if_neg (by decide)]
      exact noMatchWithin_of_class _ (fun c => !c.isDigit)
        (fun _ c s2 hc => isoMatch_none_head c _ (by simpa using hc)) t p s hsafe
    | posixPath =>
      rw [if_neg (by decide)]
      exact noMatchWithin_of_class _ (fun c => !c.isDigit)
        (fun _ c s2 hc => isoMatch_none_head c _ (by simpa using hc)) t p s hsafe
    | pidKV =>
      rw [if_neg (by decide)]
      exact noMatchWithin_iso_noDash t p s
        (fun c hc => (pidToken_chars t hshape c hc).1) hs
    | tidKV =>
      rw [if_neg (by decide)]
      exact noMatchWithin_iso_noDash t p s
        (fun c hc => (tidToken_chars t hshape c hc).1) hs
  have hRepl : ∀ (t : List Char) (p : Option Char) (s : List Char),
      catShape .isoTimestamp t = true → tokenSafe .isoTimestamp t = true →
      prevNeutral p = true → headNeutral s = true →
      noPrev isoMatch p (t ++ s) = some t.length :=
    fun t _ s hshape _ _ hs => isoRepl t s hshape hs
  exact engineStep (noPrev isoMatch) 1 .isoTimestamp rfl hLit hTok hRepl side
    es l0 prev hSide hlits hl0 hprev

theorem passUnix (side : VolHole → List Char)
    (es : List (VolHole × List Char)) (l0 : List Char) (prev : Option Char)
    (hSide : ∀ e ∈ es, catShape e.1.cat (side e.1) = true ∧
      tokenSafe e.1.cat (side e.1) = true)
    (hlits : litsOk es = true) (hl0 : l0.all neutralC = true)
    (hprev : (es.isEmpty || prevNeutral (lastConsumed prev l0)) = true) :
    gsubF unixTsMatch ("[UNIX_TIMESTAMP]".toList) prev
      (interleave (pickA 2 side) l0 es) = interleave (pickA 3 side) l0 es := by
  have hLit : ∀ (p : Option Char) (c : Char) (s2 : List Char),
      neutralC c = true → unixTsMatch p (c :: s2) = none :=
    fun p c s2 hc => unixTsMatch_none_head p c s2 (neutralC_not_digit c hc)
  have hTok : ∀ (cat : VolCat) (t : List Char), catShape cat t = true →
      tokenSafe cat t = true → cat ≠ .decimalRun →
      ∀ p s, headNeutral s = true →
        NoMatchWithin unixTsMatch p
          (if passOf cat < 2 then placeholder cat else t) s := by
    intro cat t hshape hsafe hne p s hs
    cases cat with
    | isoTimestamp =>
      rw [if_pos (by decide)]
      exact noMatchWithin_of_class _ (fun c => !c.isDigit)
        (fun p2 c s2 hc => unixTsMatch_none_head p2 c s2 (by simpa using hc))
        _ p s (by decide)
    | decimalRun => exact absurd rfl hne
    | hexAddr =>
      rw [if_neg (by decide)]
      exact noMatchWithin_unix_hexToken t p s hshape
    | iterPhrase =>
      rw [if_neg (by decide)]
      refine noMatchWithin_unix_shortRuns t p s ?_ hs
      have h2 : (!hasLongDigitRun t) = true := hsafe
      simpa using h2
    | winPath =>
      rw [if_neg (by decide)]
      exact noMatchWithin_unix_shortRuns t p s
        (hasLongDigitRun_false_of_noDigit t hsafe) hs
    | posixPath =>
      rw [if_neg (by decide)]
      exact noMatchWithin_unix_shortRuns t p s
        (hasLongDigitRun_false_of_noDigit t hsafe) hs
    | pidKV =>
      rw [if_neg (by decide)]
      refine noMatchWithin_unix_shortRuns t p s ?_ hs
      have h2 : (!hasLongDigitRun t) = true := hsafe
      simpa using h2
    | tidKV =>
      rw [if_neg (by decide)]
      refine noMatchWithin_unix_shortRuns t p s ?_ hs
      have h2 : (!hasLongDigitRun t) = true := hsafe
      simpa using h2
  have hRepl : ∀ (t : List Char) (p : Option Char) (s : List Char),
      catShape .decimalRun t = true → tokenSafe .decimalRun t = true →
      prevNeutral p = true → headNeutral s = true →
      unixTsMatch p (t ++ s) = some t.length :=
    fun t p s hshape _ hp hs => unixRepl t s p hshape hp hs
  exact engineStep unixTsMatch 2 .decimalRun rfl hLit hTok hRepl side
    es l0 prev hSide hlits hl0 hprev

theorem passHex (side : VolHole → List Char)
    (es : List (VolHole × List Char)) (l0 : List Char) (prev : Option Char)
    (hSide : ∀ e ∈ es, catShape e.1.cat (side e.1) = true ∧
      tokenSafe e.1.cat (side e.1) = true)
    (hlits : litsOk es = true) (hl0 : l0.all neutralC = true)
    (hprev : (es.isEmpty || prevNeutral (lastConsumed prev l0)) = true) :
    gsubF (noPrev hexAddrMatch) ("[HEX_ADDR]".toList) prev
      (interleave (pickA 3 side) l0 es) = interleave (pickA 4 side) l0 es := by
  have hLit : ∀ (p : Option Char) (c : Char) (s2 : List Char),
      neutralC c = true → noPrev hexAddrMatch p (c :: s2) = none :=
    fun _ c s2 hc => hexAddrMatch_none_head c _
      (neutral_ne_of_class Char.isDigit c '0' (neutralC_not_digit c hc)
        (by decide))
  have hTok : ∀ (cat : VolCat) (t : List Char), catShape cat t = true →
      tokenSafe cat t = true → cat ≠ .hexAddr →
      ∀ p s, headNeutral s = true →
        NoMatchWithin (noPrev hexAddrMatch) p
          (if passOf cat < 3 then placeholder cat else t) s := by
    intro cat t hshape hsafe hne p s hs
    cases cat with
    | isoTimestamp =>
      rw [if_pos (by decide)]
      exact noMatchWithin_of_class _ (fun c => !(c == '0'))
        (fun _ c s2 hc => hexAddrMatch_none_head c _ (by simpa using hc))
        _ p s (by decide)
    | decimalRun =>
      rw [if_pos (by decide)]
      exact noMatchWithin_of_class _ (fun c => !(c == '0'))
        (fun _ c s2 hc => hexAddrMatch_none_head c _ (by simpa using hc))
        _ p s (by decide)
    | hexAddr => exact absurd rfl hne
    | iterPhrase =>
      rw [if_neg (by decide)]
      exact noMatchWithin_hex_noX t p s
        (fun c hc => (iterToken_chars t hshape c hc).2.1) hs
    | winPath =>
      rw [if_neg (by decide)]
      exact noMatchWithin_of_class _ (fun c => !c.isDigit)
        (fun _ c s2 hc => hexAddrMatch_none_head c _
          (neutral_ne_of_class Char.isDigit c '0' (by simpa using hc)
            (by decide))) t p s hsafe
    | posixPath =>
      rw [if_neg (by decide)]
      exact noMatchWithin_of_class _ (fun c => !c.isDigit)
        (fun _ c s2 hc => hexAddrMatch_none_head c _
          (neutral_ne_of_class Char.isDigit c '0' (by simpa using hc)
            (by decide))) t p s hsafe
    | pidKV =>
      rw [if_neg (by decide)]
      exact noMatchWithin_hex_noX t p s
        (fun c hc => (pidToken_chars t hshape c hc).2.1) hs
    | tidKV =>
      rw [if_neg (by decide)]
      exact noMatchWithin_hex_noX t p s
        (fun c hc => (tidToken_chars t hshape c hc).2.1) hs
  have hRepl : ∀ (t : List Char) (p : Option Char) (s : List Char),
      catShape .hexAddr t = true → tokenSafe .hexAddr t = true →
      prevNeutral p = true → headNeutral s = true →
      noPrev hexAddrMatch p (t ++ s) = some t.length :=
    fun t _ s hshape _ _ hs => hexRepl t s hshape hs
  exact engineStep (noPrev hexAddrMatch) 3 .hexAddr rfl hLit hTok hRepl side
    es l0 prev hSide hlits hl0 hprev

theorem passIter (side : VolHole → List Char)
    (es : List (VolHole × List Char)) (l0 : List Char) (prev : Option Char)
    (hSide : ∀ e ∈ es, catShape e.1.cat (side e.1) = true ∧
      tokenSafe e.1.cat (side e.1) = true)
    (hlits : litsOk es = true) (hl0 : l0.all neutralC = true)
    (hprev : (es.isEmpty || prevNeutral (lastConsumed prev l0)) = true) :
    gsubF (noPrev iterMatch) ("iteration [N]".toList) prev
      (interleave (pickA 4 side) l0 es) = interleave (pickA 5 side) l0 es := by
  have hLit : ∀ (p : Option Char) (c : Char) (s2 : List Char),
      neutralC c = true → noPrev iterMatch p (c :: s2) = none :=
    fun _ c s2 hc => iterMatch_none_lit _
      (matchLitCI_iteration_false c _ (neutralC_not_alpha c hc))
  have hTok : ∀ (cat : VolCat) (t : List Char), catShape cat t = true →
      tokenSafe cat t = true → cat ≠ .iterPhrase →
      ∀ p s, headNeutral s = true →
        NoMatchWithin (noPrev iterMatch) p
          (if passOf cat < 4 then placeholder cat else t) s := by
    intro cat t hshape hsafe hne p s hs
    cases cat with
    | isoTimestamp =>
      rw [if_pos (by decide)]
      exact noMatchWithin_iter_noDigit _ p s (by decide) hs
    | decimalRun =>
      rw [if_pos (by decide)]
      exact noMatchWithin_iter_noDigit _ p s (by decide) hs
    | hexAddr =>
      rw [if_pos (by decide)]
      exact noMatchWithin_iter_noDigit _ p s (by decide) hs
    | iterPhrase => exact absurd rfl hne
    | winPath =>
      rw [if_neg (by decide)]
      exact noMatchWithin_iter_noDigit t p s hsafe hs
    | posixPath =>
      rw [if_neg (by decide)]
      exact noMatchWithin_iter_noDigit t p s hsafe hs
    | pidKV =>
      rw [if_neg (by decide)]
      exact noMatchWithin_iter_pidToken t p s hshape
    | tidKV =>
      rw [if_neg (by decide)]
      exact noMatchWithin_iter_tidToken t p s hshape
  have hRepl : ∀ (t : List Char) (p : Option Char) (s : List Char),
      catShape .iterPhrase t = true → tokenSafe .iterPhrase t = true →
      prevNeutral p = true → headNeutral s = true →
      noPrev iterMatch p (t ++ s) = some t.length :=
    fun t _ s hshape _ _ hs => iterRepl t s hshape hs
  exact engineStep (noPrev iterMatch) 4 .iterPhrase rfl hLit hTok hRepl side
    es l0 prev hSide hlits hl0 hprev

theorem passWin (side : VolHole → List Char)
    (es : List (VolHole × List Char)) (l0 : List Char) (prev : Option Char)
    (hSide : ∀ e ∈ es, catShape e.1.cat (side e.1) = true ∧
      tokenSafe e.1.cat (side e.1) = true)
    (hlits : litsOk es = true) (hl0 : l0.all neutralC = true)
    (hprev : (es.isEmpty || prevNeutral (lastConsumed prev l0)) = true) :
    gsubF (noPrev winPathMatch) ("[PATH]".toList) prev
      (interleave (pickA 5 side) l0 es) = interleave (pickA 6 side) l0 es := by
  have hLit : ∀ (p : Option Char) (c : Char) (s2 : List Char),
      neutralC c = true → noPrev winPathMatch p (c :: s2) = none :=
    fun _ c s2 hc => winPathMatch_none_alpha c _ (neutralC_not_alpha c hc)
  have hTok : ∀ (cat : VolCat) (t : List Char), catShape cat t = true →
      tokenSafe cat t = true → cat ≠ .winPath →
      ∀ p s, headNeutral s = true →
        NoMatchWithin (noPrev winPathMatch) p
          (if passOf cat < 5 then placeholder cat else t) s := by
    intro cat t hshape hsafe hne p s hs
    cases cat with
    | isoTimestamp =>
      rw [if_pos (by decide)]
      exact noMatchWithin_win_noColon _ p s (by decide) hs
    | decimalRun =>
      rw [if_pos (by decide)]
      exact noMatchWithin_win_noColon _ p s (by decide) hs
    | hexAddr =>
      rw [if_pos (by decide)]
      exact noMatchWithin_win_noColon _ p s (by decide) hs
    | iterPhrase =>
      rw [if_pos (by decide)]
      exact noMatchWithin_win_noColon _ p s (by decide) hs
    | winPath => exact absurd rfl hne
    | posixPath =>
      rw [if_neg (by decide)]
      exact noMatchWithin_win_noColon t p s (posixToken_ne_colon t hshape) hs
    | pidKV =>
      rw [if_neg (by decide)]
      exact noMatchWithin_win_noColon t p s
        (fun c hc => (pidToken_chars t hshape c hc).2.2.1) hs
    | tidKV =>
      rw [if_neg (by decide)]
      exact noMatchWithin_win_noColon t p s
        (fun c hc => (tidToken_chars t hshape c hc).2.2.1) hs
  have hRepl : ∀ (t : List Char) (p : Option Char) (s : List Char),
      catShape .winPath t = true → tokenSafe .winPath t = true →
      prevNeutral p = true → headNeutral s = true →
      noPrev winPathMatch p (t ++ s) = some t.length :=
    fun t _ s hshape _ _ hs => winRepl t s hshape hs
  exact engineStep (noPrev winPathMatch) 5 .winPath rfl hLit hTok hRepl side
    es l0 prev hSide hlits hl0 hprev

theorem passPosix (side : VolHole → List Char)
    (es : List (VolHole × List Char)) (l0 : List Char) (prev : Option Char)
    (hSide : ∀ e ∈ es, catShape e.1.cat (side e.1) = true ∧
      tokenSafe e.1.cat (side e.1) = true)
    (hlits : litsOk es = true) (hl0 : l0.all neutralC = true)
    (hprev : (es.isEmpty || prevNeutral (lastConsumed prev l0)) = true) :
    gsubF (noPrev posixMatch) ("[PATH]".toList) prev
      (interleave (pickA 6 side) l0 es) = interleave (pickA 7 side) l0 es := by
  have hLit : ∀ (p : Option Char) (c : Char) (s2 : List Char),
      neutralC c = true → noPrev posixMatch p (c :: s2) = none :=
    fun _ c s2 hc => posixMatch_none_head c _
      ((neutralC_spec c hc).2.2.2.2.2.2.1)
  have hTok : ∀ (cat : VolCat) (t : List Char), catShape cat t = true →
      tokenSafe cat t = true → cat ≠ .posixPath →
      ∀ p s, headNeutral s = true →
        NoMatchWithin (noPrev posixMatch) p
          (if passOf cat < 6 then placeholder cat else t) s := by
    intro cat t hshape hsafe hne p s hs
    cases cat with
    | isoTimestamp =>
      rw [if_pos (by decide)]
      exact noMatchWithin_of_class _ (fun c => !(c == '/'))
        (fun _ c s2 hc => posixMatch_none_head c _ (by simpa using hc))
        _ p s (by decide)
    | decimalRun =>
      rw [if_pos (by decide)]
      exact noMatchWithin_of_class _ (fun c => !(c == '/'))
        (fun _ c s2 hc => posixMatch_none_head c _ (by simpa using hc))
        _ p s (by decide)
    | hexAddr =>
      rw [if_pos (by decide)]
      exact noMatchWithin_of_class _ (fun c => !(c == '/'))
        (fun _ c s2 hc => posixMatch_none_head c _ (by simpa using hc))
        _ p s (by decide)
    | iterPhrase =>
      rw [if_pos (by decide)]
      exact noMatchWithin_of_class _ (fun c => !(c == '/'))
        (fun _ c s2 hc => posixMatch_none_head c _ (by simpa using hc))
        _ p s (by decide)
    | winPath =>
      rw [if_pos (by decide)]
      exact noMatchWithin_of_class _ (fun c => !(c == '/'))
        (fun _ c s2 hc => posixMatch_none_head c _ (by simpa using hc))
        _ p s (by decide)
    | posixPath => exact absurd rfl hne
    | pidKV =>
      rw [if_neg (by decide)]
      refine noMatchWithin_of_class _ (fun c => !(c == '/'))
        (fun _ c s2 hc => posixMatch_none_head c _ (by simpa using hc))
        t p s ?_
      rw [List.all_eq_true]
      intro c hc
      simp only [Bool.not_eq_true', beq_eq_false_iff_ne]
      exact (pidToken_chars t hshape c hc).2.2.2
    | tidKV =>
      rw [if_neg (by decide)]
      refine noMatchWithin_of_class _ (fun c => !(c == '/'))
        (fun _ c s2 hc => posixMatch_none_head c _ (by simpa using hc))
        t p s ?_
      rw [List.all_eq_true]
      intro c hc
      simp only [Bool.not_eq_true', beq_eq_false_iff_ne]
      exact (tidToken_chars t hshape c hc).2.2.2.1
  have hRepl : ∀ (t : List Char) (p : Option Char) (s : List Char),
      catShape .posixPath t = true → tokenSafe .posixPath t = true →
      prevNeutral p = true → headNeutral s = true →
      noPrev posixMatch p (t ++ s) = some t.length :=
    fun t _ s hshape _ _ hs => posixRepl t s hshape hs
  exact engineStep (noPrev posixMatch) 6 .posixPath rfl hLit hTok hRepl side
    es l0 prev hSide hlits hl0 hprev

theorem passMem (side : VolHole → List Char)
    (es : List (VolHole × List Char)) (l0 : List Char) (prev : Option Char)
    (hSide : ∀ e ∈ es, catShape e.1.cat (side e.1) = true ∧
      tokenSafe e.1.cat (side e.1) = true)
    (hlits : litsOk es = true) (hl0 : l0.all neutralC = true) :
    gsubF memAddrMatch ("[MEM_ADDR]".toList) prev
      (interleave (pickA 7 side) l0 es) = interleave (pickA 7 side) l0 es := by
  have hLit : ∀ (p : Option Char) (c : Char) (s2 : List Char),
      neutralC c = true → memAddrMatch p (c :: s2) = none :=
    fun p c s2 hc => memAddrMatch_none_head p c _
      (neutral_ne_of_class Char.isDigit c '0' (neutralC_not_digit c hc)
        (by decide))
  have hTok : ∀ (cat : VolCat) (t : List Char), catShape cat t = true →
      tokenSafe cat t = true →
      ∀ p s, headNeutral s = true →
        NoMatchWithin memAddrMatch p
          (if passOf cat < 7 then placeholder cat else t) s := by
    intro cat t hshape hsafe p s hs
    cases cat with
    | isoTimestamp =>
      rw [if_pos (by decide)]
      exact noMatchWithin_of_class _ (fun c => !(c == '0'))
        (fun p2 c s2 hc => memAddrMatch_none_head p2 c _ (by simpa using hc))
        _ p s (by decide)
    | decimalRun =>
      rw [if_pos (by decide)]
      exact noMatchWithin_of_class _ (fun c => !(c == '0'))
        (fun p2 c s2 hc => memAddrMatch_none_head p2 c _ (by simpa using hc))
        _ p s (by decide)
    | hexAddr =>
      rw [if_pos (by decide)]
      exact noMatchWithin_of_class _ (fun c => !(c == '0'))
        (fun p2 c s2 hc => memAddrMatch_none_head p2 c _ (by simpa using hc))
        _ p s (by decide)
    | iterPhrase =>
      rw [if_pos (by decide)]
      exact noMatchWithin_of_class _ (fun c => !(c == '0'))
        (fun p2 c s2 hc => memAddrMatch_none_head p2 c _ (by simpa using hc))
        _ p s (by decide)
    | winPath =>
      rw [if_pos (by decide)]
      exact noMatchWithin_of_class _ (fun c => !(c == '0'))
        (fun p2 c s2 hc => memAddrMatch_none_head p2 c _ (by simpa using hc))
        _ p s (by decide)
    | posixPath =>
      rw [if_pos (by decide)]
      exact noMatchWithin_of_class _ (fun c => !(c == '0'))
        (fun p2 c s2 hc => memAddrMatch_none_head p2 c _ (by simpa using hc))
        _ p s (by decide)
    | pidKV =>
      rw [if_neg (by decide)]
      exact noMatchWithin_mem_noX t p s
        (fun c hc => (pidToken_chars t hshape c hc).2.1) hs
    | tidKV =>
      rw [if_neg (by decide)]
      exact noMatchWithin_mem_noX t p s
        (fun c hc => (tidToken_chars t hshape c hc).2.1) hs
  exact engineSkip memAddrMatch ("[MEM_ADDR]".toList) 7 hLit hTok side
    es l0 prev hSide hlits hl0

theorem passPid (side : VolHole → List Char)
    (es : List (VolHole × List Char)) (l0 : List Char) (prev : Option Char)
    (hSide : ∀ e ∈ es, catShape e.1.cat (side e.1) = true ∧
      tokenSafe e.1.cat (side e.1) = true)
    (hlits : litsOk es = true) (hl0 : l0.all neutralC = true)
    (hprev : (es.isEmpty || prevNeutral (lastConsumed prev l0)) = true) :
    gsubF (noPrev pidMatch) ("pid=[PID]".toList) prev
      (interleave (pickA 8 side) l0 es) = interleave (pickA 9 side) l0 es := by
  have hLit : ∀ (p : Option Char) (c : Char) (s2 : List Char),
      neutralC c = true → noPrev pidMatch p (c :: s2) = none :=
    fun _ c s2 hc => pidMatch_none_head c _
      (neutral_ne_of_class Char.isAlpha c 'p' (neutralC_not_alpha c hc)
        (by decide))
  have hTok : ∀ (cat : VolCat) (t : List Char), catShape cat t = true →
      tokenSafe cat t = true → cat ≠ .pidKV →
      ∀ p s, headNeutral s = true →
        NoMatchWithin (noPrev pidMatch) p
          (if passOf cat < 8 then placeholder cat else t) s := by
    intro cat t hshape hsafe hne p s hs
    cases cat with
    | isoTimestamp =>
      rw [if_pos (by decide)]
      exact noMatchWithin_of_class _ (fun c => !(c == 'p'))
        (fun _ c s2 hc => pidMatch_none_head c _ (by simpa using hc))
        _ p s (by decide)
    | decimalRun =>
      rw [if_pos (by decide)]
      exact noMatchWithin_of_class _ (fun c => !(c == 'p'))
        (fun _ c s2 hc => pidMatch_none_head c _ (by simpa using hc))
        _ p s (by decide)
    | hexAddr =>
      rw [if_pos (by decide)]
      exact noMatchWithin_of_class _ (fun c => !(c == 'p'))
        (fun _ c s2 hc => pidMatch_none_head c _ (by simpa using hc))
        _ p s (by decide)
    | iterPhrase =>
      rw [if_pos (by decide)]
      exact noMatchWithin_of_class _ (fun c => !(c == 'p'))
        (fun _ c s2 hc => pidMatch_none_head c _ (by simpa using hc))
        _ p s (by decide)
    | winPath =>
      rw [if_pos (by decide)]
      exact noMatchWithin_of_class _ (fun c => !(c == 'p'))
        (fun _ c s2 hc => pidMatch_none_head c _ (by simpa using hc))
        _ p s (by decide)
    | posixPath =>
      rw [if_pos (by decide)]
      exact noMatchWithin_of_class _ (fun c => !(c == 'p'))
        (fun _ c s2 hc => pidMatch_none_head c _ (by simpa using hc))
        _ p s (by decide)
    | pidKV => exact absurd rfl hne
    | tidKV =>
      rw [if_neg (by decide)]
      refine noMatchWithin_of_class _ (fun c => !(c == 'p'))
        (fun _ c s2 hc => pidMatch_none_head c _ (by simpa using hc))
        t p s ?_
      rw [List.all_eq_true]
      intro c hc
      simp only [Bool.not_eq_true', beq_eq_false_iff_ne]
      exact (tidToken_chars t hshape c hc).2.2.2.2
  have hRepl : ∀ (t : List Char) (p : Option Char) (s : List Char),
      catShape .pidKV t = true → tokenSafe .pidKV t = true →
      prevNeutral p = true → headNeutral s = true →
      noPrev pidMatch p (t ++ s) = some t.length :=
    fun t _ s hshape _ _ hs => pidRepl t s hshape hs
  exact engineStep (noPrev pidMatch) 8 .pidKV rfl hLit hTok hRepl side
    es l0 prev hSide hlits hl0 hprev

theorem passTid (side : VolHole → List Char)
    (es : List (VolHole × List Char)) (l0 : List Char) (prev : Option Char)
    (hSide : ∀ e ∈ es, catShape e.1.cat (side e.1) = true ∧
      tokenSafe e.1.cat (side e.1) = true)
    (hlits : litsOk es = true) (hl0 : l0.all neutralC = true)
    (hprev : (es.isEmpty || prevNeutral (lastConsumed prev l0)) = true) :
    gsubF (noPrev tidMatch) ("tid=[TID]".toList) prev
      (interleave (pickA 9 side) l0 es) = interleave (pickA 10 side) l0 es := by
  have hLit : ∀ (p : Option Char) (c : Char) (s2 : List Char),
      neutralC c = true → noPrev tidMatch p (c :: s2) = none :=
    fun _ c s2 hc => tidMatch_none_head c _
      (neutral_ne_of_class Char.isAlpha c 't' (neutralC_not_alpha c hc)
        (by decide))
  have hTok : ∀ (cat : VolCat) (t : List Char), catShape cat t = true →
      tokenSafe cat t = true → cat ≠ .tidKV →
      ∀ p s, headNeutral s = true →
        NoMatchWithin (noPrev tidMatch) p
          (if passOf cat < 9 then placeholder cat else t) s := by
    intro cat t hshape hsafe hne p s hs
    cases cat with
    | isoTimestamp =>
      rw [if_pos (by decide)]
      exact noMatchWithin_of_class _ (fun c => !(c == 't'))
        (fun _ c s2 hc => tidMatch_none_head c _ (by simpa using hc))
        _ p s (by decide)
    | decimalRun =>
      rw [if_pos (by decide)]
      exact noMatchWithin_of_class _ (fun c => !(c == 't'))
        (fun _ c s2 hc => tidMatch_none_head c _ (by simpa using hc))
        _ p s (by decide)
    | hexAddr =>
      rw [if_pos (by decide)]
      exact noMatchWithin_of_class _ (fun c => !(c == 't'))
        (fun _ c s2 hc => tidMatch_none_head c _ (by simpa using hc))
        _ p s (by decide)
    | iterPhrase =>
      rw [if_pos (by decide)]
      exact noMatchWithin_tid_iterPlaceholder p s
    | winPath =>
      rw [if_pos (by decide)]
      exact noMatchWithin_of_class _ (fun c => !(c == 't'))
        (fun _ c s2 hc => tidMatch_none_head c _ (by simpa using hc))
        _ p s (by decide)
    | posixPath =>
      rw [if_pos (by decide)]
      exact noMatchWithin_of_class _ (fun c => !(c == 't'))
        (fun _ c s2 hc => tidMatch_none_head c _ (by simpa using hc))
        _ p s (by decide)
    | pidKV =>
      rw [if_pos (by decide)]
      exact noMatchWithin_of_class _ (fun c => !(c == 't'))
        (fun _ c s2 hc => tidMatch_none_head c _ (by simpa using hc))
        _ p s (by decide)
    | tidKV => exact absurd rfl hne
  have hRepl : ∀ (t : List Char) (p : Option Char) (s : List Char),
      catShape .tidKV t = true → tokenSafe .tidKV t = true →
      prevNeutral p = true → headNeutral s = true →
      noPrev tidMatch p (t ++ s) = some t.length :=
    fun t _ s hshape _ _ hs => tidRepl t s hshape hs
  exact engineStep (noPrev tidMatch) 9 .tidKV rfl hLit hTok hRepl side
    es l0 prev hSide hlits hl0 hprev

theorem pickA_one (side : VolHole → List Char) : pickA 1 side = side := by
  funext h
  unfold pickA
  rw [if_neg (by have := passOf_pos h.cat; omega)]

theorem pickA_seven_eight (side : VolHole → List Char) :
    pickA 8 side = pickA 7 side := by
  funext h
  unfold pickA
  by_cases hlt : passOf h.cat < 7
  · rw [if_pos (by omega), if_pos hlt]
  · have := passOf_ne_seven h.cat
    rw [if_neg (by omega), if_neg hlt]

theorem pickA_ten (side : VolHole → List Char) :
    pickA 10 side = fun h => placeholder h.cat := by
  funext h
  unfold pickA
  rw [if_pos (by have := passOf_le_nine h.cat; omega)]

/-- `normalize_output` over an assembled text replaces every hole's token by
its category's placeholder, independently of the side chosen. -/
theorem normalize_output_interleave (side : VolHole → List Char)
    (l0 : List Char) (es : List (VolHole × List Char))
    (hSide : ∀ e ∈ es, catShape e.1.cat (side e.1) = true ∧
      tokenSafe e.1.cat (side e.1) = true)
    (hlits : litsOk es = true) (hl0 : l0.all neutralC = true) :
    normalize_output (interleave side l0 es) =
      interleave (fun h => placeholder h.cat) l0 es := by
  have hprev : (es.isEmpty || prevNeutral (lastConsumed none l0)) = true := by
    rw [prevNeutral_lastConsumed none l0 rfl hl0, Bool.or_true]
  have h1 : gsubF (noPrev isoMatch) ("[TIMESTAMP]".toList) none
      (interleave side l0 es) = interleave (pickA 2 side) l0 es := by
    conv_lhs => rw [← pickA_one side]
    exact passIso side es l0 none hSide hlits hl0 hprev
  have h2 := passUnix side es l0 none hSide hlits hl0 hprev
  have h3 := passHex side es l0 none hSide hlits hl0 hprev
  have h4 := passIter side es l0 none hSide hlits hl0 hprev
  have h5 := passWin side es l0 none hSide hlits hl0 hprev
  have h6 := passPosix side es l0 none hSide hlits hl0 hprev
  have h7 := passMem side es l0 none hSide hlits hl0
  have h8 := passPid side es l0 none hSide hlits hl0 hprev
  have h9 := passTid side es l0 none hSide hlits hl0 hprev
  show gsub (noPrev tidMatch) ("tid=[TID]".toList)
      (gsub (noPrev pidMatch) ("pid=[PID]".toList)
        (gsub memAddrMatch ("[MEM_ADDR]".toList)
          (gsub (noPrev posixMatch) ("[PATH]".toList)
            (gsub (noPrev winPathMatch) ("[PATH]".toList)
              (gsub (noPrev iterMatch) ("iteration [N]".toList)
                (gsub (noPrev hexAddrMatch) ("[HEX_ADDR]".toList)
                  (gsub unixTsMatch ("[UNIX_TIMESTAMP]".toList)
                    (gsub (noPrev isoMatch) ("[TIMESTAMP]".toList)
                      (interleave side l0 es))))))))) =
    interleave (fun h => placeholder h.cat) l0 es
  rw [gsub_eq_gsubF, gsub_eq_gsubF, gsub_eq_gsubF, gsub_eq_gsubF,
    gsub_eq_gsubF, gsub_eq_gsubF, gsub_eq_gsubF, gsub_eq_gsubF, gsub_eq_gsubF]
  rw [h1, h2, h3, h4, h5, h6, h7, ← pickA_seven_eight side, h8, h9,
    pickA_ten side]

set_option maxRecDepth 1000000 in
/-- C2: the claim as stated fails — `\b\d{10,}\b` demands word boundaries, so
a long digit run glued to a word character is not normalized, and two texts
differing only in such a run hash differently. -/
theorem volatile_digest_counterexample :
    DifferOnlyInVolatile ("x1234567890".toList) ("x12345678901".toList) ∧
    compute_normalized_hash ("x1234567890".toList) ≠
      compute_normalized_hash ("x12345678901".toList) := by
  constructor
  · refine ⟨"x".toList,
      [(⟨.decimalRun, "1234567890".toList, "12345678901".toList⟩, [])],
      by decide, rfl, rfl⟩
  · decide

/-- C2 (amended): for every pair of texts that differ only in volatile tokens
— ISO timestamps, 10-or-more-digit decimal runs, hex addresses, iteration
phrases, Windows or POSIX path fragments, pid=/tid= pairs — where the tokens
are set off by pattern-inert text (no word, whitespace, hex, path or
timestamp characters and none of the patterns' structural characters, with at
least one such character between adjacent tokens), iteration and pid/tid
tokens hold no 10-digit run, and path tokens are digit-free, the SHA-256
digests of the normalized texts agree. -/
theorem normalized_digest_volatile (a b : List Char)
    (hdiff : DifferOnlyInVolatileSep a b) :
    compute_normalized_hash a = compute_normalized_hash b := by
  obtain ⟨l0, es, hsh, hsafe, hlits, hl0, ha, hb⟩ := hdiff
  have hSideL : ∀ e ∈ es, catShape e.1.cat e.1.left = true ∧
      tokenSafe e.1.cat e.1.left = true := by
    intro e he
    have h1 : (catShape e.1.cat e.1.left && catShape e.1.cat e.1.right) = true :=
      List.all_eq_true.mp hsh e he
    have h2 : (tokenSafe e.1.cat e.1.left && tokenSafe e.1.cat e.1.right) = true :=
      List.all_eq_true.mp hsafe e he
    rw [Bool.and_eq_true] at h1 h2
    exact ⟨h1.1, h2.1⟩
  have hSideR : ∀ e ∈ es, catShape e.1.cat e.1.right = true ∧
      tokenSafe e.1.cat e.1.right = true := by
    intro e he
    have h1 : (catShape e.1.cat e.1.left && catShape e.1.cat e.1.right) = true :=
      List.all_eq_true.mp hsh e he
    have h2 : (tokenSafe e.1.cat e.1.left && tokenSafe e.1.cat e.1.right) = true :=
      List.all_eq_true.mp hsafe e he
    rw [Bool.and_eq_true] at h1 h2
    exact ⟨h1.2, h2.2⟩
  have hL := normalize_output_interleave (fun h => h.left) l0 es hSideL hlits hl0
  have hR := normalize_output_interleave (fun h => h.right) l0 es hSideR hlits hl0
  unfold compute_normalized_hash
  rw [ha, hb, hL, hR]

/-- C2 witness: two texts differing in a semicolon-delimited long decimal run
hash identically. -/
theorem normalized_digest_volatile_witness :
    compute_normalized_hash (";1234567890;".toList) =
      compute_normalized_hash (";12345678901;".toList) :=
  normalized_digest_volatile _ _
    ⟨";".toList,
      [(⟨.decimalRun, "1234567890".toList, "12345678901".toList⟩, ";".toList)],
      by decide, by decide, by decide, by decide, rfl, rfl⟩

end HybridConductor

